import Mathlib

/-!
Verification of the LiveDomJs reactive recomputation engine
(`handleLiveComputeUnified` in the repository's bundled script).

The JavaScript source is shallowly embedded: JS numbers are modelled as `ℚ`
(no floating-point artifacts are relevant to the verified properties, which
are about exact comparisons, tolerances of `1e-4`, and decimal rendering),
JS strings as `String`/`List Char`, `NaN`-producing computations as
`Option`-valued functions (`none` = `NaN`), and the handful of JS builtins
the engine calls (`parseFloat`, `Number`, `Date`, `Array.prototype.sort`,
`Intl.NumberFormat`, `toFixed`) as explicit Lean models of their ECMAScript
behaviour on the inputs the engine feeds them.
-/

set_option maxHeartbeats 1000000
set_option maxRecDepth 4000

namespace LiveDom

/-- Whitespace recognised by the model of JS string trimming. -/
def isWS (c : Char) : Bool := c = ' ' ∨ c = '\t' ∨ c = '\n' ∨ c = '\r'

/-- Model of `String.prototype.trim`: drop whitespace on both ends. -/
def jsTrim (cs : List Char) : List Char :=
  ((cs.dropWhile isWS).reverse.dropWhile isWS).reverse

/-- Numeric value of a list of decimal digit characters (most significant
first), as read left to right. -/
def digitsVal (cs : List Char) : ℕ :=
  cs.foldl (fun a c => 10 * a + (c.toNat - 48)) 0

/-- Structural part of the JS builtin `parseFloat` on a string: skip
leading whitespace, optional sign, longest prefix `digits [. digits]`;
`none` models `NaN` (no digits at all).  Exponent forms and `Infinity` are
outside the fragment the engine produces and are not modelled. -/
def floatParts (cs : List Char) : Option (Bool × List Char × List Char) :=
  let cs1 := cs.dropWhile isWS
  let neg := cs1.head? = some '-'
  let cs2 := if cs1.head? = some '-' ∨ cs1.head? = some '+' then cs1.tail else cs1
  let ip := cs2.takeWhile Char.isDigit
  let rest := cs2.dropWhile Char.isDigit
  let fp := if rest.head? = some '.' then rest.tail.takeWhile Char.isDigit else []
  if ip = [] ∧ fp = [] then none else some (neg, ip, fp)

/-- Value of a parsed sign/integer-digits/fraction-digits triple. -/
def floatVal (neg : Bool) (ip fp : List Char) : ℚ :=
  let v : ℚ := (digitsVal ip : ℚ) + (digitsVal fp : ℚ) / 10 ^ fp.length
  if neg then -v else v

/-- Model of `parseFloat`; `none` models `NaN`. -/
def jsParseFloat (cs : List Char) : Option ℚ :=
  (floatParts cs).map fun x => floatVal x.1 x.2.1 x.2.2

/-- The JS values that flow through the engine's convergence checks:
numbers, strings, and `undefined` (an element with no cached value). -/
inductive Value where
  | num (q : ℚ)
  | str (s : String)
  | undefined
deriving DecidableEq

/-- `parseFloat` applied to a `Value`, as the engine does inside
`isValueConverged`; `none` models `NaN`. -/
def parseVal : Value → Option ℚ
  | .num q => some q
  | .str s => jsParseFloat s.data
  | .undefined => none

/-- `const PRECISION_TOLERANCE = 0.0001`. -/
def PRECISION_TOLERANCE : ℚ := 1 / 10000

/-- Embedding of `isValueConverged(oldValue, newValue)`:
empty-string-vs-zero guard, strict equality, then absolute and relative
tolerance on the parsed numbers. -/
def isValueConverged (oldValue newValue : Value) : Bool :=
  if oldValue = .str "" ∧ newValue = .num 0 then false
  else if oldValue = newValue then true
  else
    match parseVal oldValue, parseVal newValue with
    | some oldNum, some newNum =>
        if |oldNum - newNum| < PRECISION_TOLERANCE then true
        else if oldNum ≠ 0 ∧ |(newNum - oldNum) / oldNum| < PRECISION_TOLERANCE then true
        else false
    | _, _ => false

/-- Convergence of two raw numbers (the only values the circular-detection
history ever stores). -/
def convergedQ (a b : ℚ) : Bool := isValueConverged (.num a) (.num b)

/-- An "empty/unset" value in the sense of the specification. -/
def isEmptyVal (v : Value) : Prop := v = .str "" ∨ v = .undefined

/-- The specification's wording of convergence: exactly equal, or both
parse as numbers and within absolute tolerance `1e-4`, or within relative
tolerance `1e-4` of the (nonzero) previous value — and an empty/unset
value is never converged with a numeric `0`. -/
def convergedSpec (oldValue newValue : Value) : Prop :=
  (oldValue = newValue ∨
    ∃ a b, parseVal oldValue = some a ∧ parseVal newValue = some b ∧
      (|a - b| < PRECISION_TOLERANCE ∨ (a ≠ 0 ∧ |(b - a) / a| < PRECISION_TOLERANCE))) ∧
  ¬(isEmptyVal oldValue ∧ newValue = .num 0) ∧
  ¬(isEmptyVal newValue ∧ oldValue = .num 0)

theorem parseVal_of_isEmptyVal {v : Value} (h : isEmptyVal v) : parseVal v = none := by
  rcases h with h | h <;> subst h <;> rfl

/-- C3.  Two raw values are judged converged iff they are exactly equal, or
both parse as numbers and differ by less than the absolute tolerance
`1e-4`, or (for a nonzero previous value) differ relatively by less than
`1e-4`; and an empty/unset value is never judged converged with a numeric
`0`. -/
theorem c3_isValueConverged_spec (o n : Value) : isValueConverged o n = true ↔ convergedSpec o n := by
  by_cases hz : o = Value.str "" ∧ n = Value.num 0
  · have hcode : isValueConverged o n = false := by
      unfold isValueConverged; rw [if_pos hz]
    rw [hcode]
    simp only [Bool.false_eq_true, false_iff]
    rintro ⟨-, h2, -⟩
    exact h2 ⟨Or.inl hz.1, hz.2⟩
  · by_cases heq : o = n
    · have hcode : isValueConverged o n = true := by
        unfold isValueConverged; rw [if_neg hz, if_pos heq]
      rw [hcode]
      subst heq
      refine iff_of_true rfl ⟨Or.inl rfl, ?_, ?_⟩ <;>
        · rintro ⟨he, h0⟩
          rw [h0] at he
          rcases he with h | h <;> exact Value.noConfusion h
    · cases ho : parseVal o with
      | none =>
        have hcode : isValueConverged o n = false := by
          unfold isValueConverged
          rw [if_neg hz, if_neg heq, ho]
        rw [hcode]
        simp only [Bool.false_eq_true, false_iff]
        rintro ⟨h | ⟨a, b, ha, -, -⟩, -, -⟩
        · exact heq h
        · rw [ho] at ha; exact Option.noConfusion ha
      | some a =>
        cases hn : parseVal n with
        | none =>
          have hcode : isValueConverged o n = false := by
            unfold isValueConverged
            rw [if_neg hz, if_neg heq, ho, hn]
          rw [hcode]
          simp only [Bool.false_eq_true, false_iff]
          rintro ⟨h | ⟨a', b, -, hb, -⟩, -, -⟩
          · exact heq h
          · rw [hn] at hb; exact Option.noConfusion hb
        | some b =>
          have hcode : isValueConverged o n =
              (if |a - b| < PRECISION_TOLERANCE then true
               else if a ≠ 0 ∧ |(b - a) / a| < PRECISION_TOLERANCE then true else false) := by
            unfold isValueConverged
            rw [if_neg hz, if_neg heq, ho, hn]
          rw [hcode]
          constructor
          · intro h
            refine ⟨Or.inr ⟨a, b, ho, hn, ?_⟩, ?_, ?_⟩
            · by_cases h1 : |a - b| < PRECISION_TOLERANCE
              · exact Or.inl h1
              · rw [if_neg h1] at h
                by_cases h2 : a ≠ 0 ∧ |(b - a) / a| < PRECISION_TOLERANCE
                · exact Or.inr h2
                · rw [if_neg h2] at h; exact absurd h (by simp)
            · rintro ⟨he, -⟩
              rw [parseVal_of_isEmptyVal he] at ho
              exact Option.noConfusion ho
            · rintro ⟨he, -⟩
              rw [parseVal_of_isEmptyVal he] at hn
              exact Option.noConfusion hn
          · rintro ⟨h | ⟨a', b', ha', hb', hc⟩, -, -⟩
            · exact absurd h heq
            · rw [ho] at ha'
              rw [hn] at hb'
              injection ha' with ha2
              injection hb' with hb2
              subst ha2
              subst hb2
              by_cases h1 : |a - b| < PRECISION_TOLERANCE
              · rw [if_pos h1]
              · rw [if_neg h1]
                rcases hc with hc | hc
                · exact absurd hc h1
                · rw [if_pos hc]

/-! ## The numeric coercion `toNumber` -/

/-- Characters kept by `val.replace(/[^\d.,]/g, '')`. -/
def keepChar (c : Char) : Bool := c.isDigit || c == '.' || c == ','

/-- Matcher for a `\.\d+$` tail (the `(\.\d+)?` option of the second
separator pattern). -/
def dotTail : List Char → Bool
  | '.' :: ds => !ds.isEmpty && ds.all Char.isDigit
  | _ => false

/-- Matcher for a `,\d+$` tail (the `(,\d+)?` option of the first
separator pattern). -/
def commaTail : List Char → Bool
  | ',' :: ds => !ds.isEmpty && ds.all Char.isDigit
  | _ => false

/-- Matcher for the `(\.\d{3})+(,\d+)?$` tail of
`/^\d{1,3}(\.\d{3})+(,\d+)?$/`. -/
def dotGroups : List Char → Bool
  | '.' :: a :: b :: c :: rest =>
      a.isDigit && b.isDigit && c.isDigit &&
        (rest.isEmpty || dotGroups rest || commaTail rest)
  | _ => false

/-- Matcher for the `(,\d{3})+(\.\d+)?$` tail of
`/^\d{1,3}(,\d{3})+(\.\d+)?$/`. -/
def commaGroups : List Char → Bool
  | ',' :: a :: b :: c :: rest =>
      a.isDigit && b.isDigit && c.isDigit &&
        (rest.isEmpty || commaGroups rest || dotTail rest)
  | _ => false

/-- `/^\d{1,3}(\.\d{3})+(,\d+)?$/` — the `1.234,56` convention. -/
def isP1 (cs : List Char) : Bool :=
  let d := cs.takeWhile Char.isDigit
  decide (1 ≤ d.length) && decide (d.length ≤ 3) && dotGroups (cs.dropWhile Char.isDigit)

/-- `/^\d{1,3}(,\d{3})+(\.\d+)?$/` — the `1,234.56` convention. -/
def isP2 (cs : List Char) : Bool :=
  let d := cs.takeWhile Char.isDigit
  decide (1 ≤ d.length) && decide (d.length ≤ 3) && commaGroups (cs.dropWhile Char.isDigit)

/-- `/^\d+([.,]\d+)?$/` — a plain number with a single separator. -/
def isP3 (cs : List Char) : Bool :=
  let d := cs.takeWhile Char.isDigit
  let rest := cs.dropWhile Char.isDigit
  decide (1 ≤ d.length) && (rest.isEmpty || dotTail rest || commaTail rest)

/-- `String.prototype.replace(',', '.')`: only the first comma. -/
def replaceFirstComma : List Char → List Char
  | [] => []
  | ',' :: rest => '.' :: rest
  | c :: rest => c :: replaceFirstComma rest

/-- The tail of `toNumber` after cleaning: the empty check, the
separator-convention branches, the `isNaN` fallback to `0`, the sign and
the percent division. -/
def toNumberCore (v : List Char) (isNeg isPct : Bool) : ℚ :=
  if v = [] then 0
  else
    let r :=
      if isP1 v then jsParseFloat (replaceFirstComma (v.filter (· != '.')))
      else if isP2 v then jsParseFloat (v.filter (· != ','))
      else if isP3 v then
        if v.contains ',' then jsParseFloat (replaceFirstComma v) else jsParseFloat v
      else jsParseFloat (v.filter fun c => !(c == '.' || c == ','))
    let r1 := r.getD 0
    let r2 := if isNeg then -r1 else r1
    if isPct then r2 / 100 else r2

/-- Embedding of `toNumber(val)` on a string: trim, the `''`/`'-'` early
returns, percent stripping, leading-minus stripping, the
`[^\d.,]` strip and the pattern-matched separator normalization. -/
def toNumberStr (s : String) : ℚ :=
  let v1 := jsTrim s.data
  if v1 = [] ∨ v1 = ['-'] then 0
  else
    let isPct := v1.contains '%'
    let v2 := v1.filter (· != '%')
    let isNeg := v2.head? = some '-'
    let v3 := if isNeg then v2.tail else v2
    let v4 := v3.filter keepChar
    toNumberCore v4 isNeg isPct

/-! Support lemmas about trimming, dropping and filtering. -/

theorem dropWhile_append_singleton {p : Char → Bool} {c : Char} (hc : p c = false) :
    ∀ l : List Char, (l ++ [c]).dropWhile p = l.dropWhile p ++ [c] := by
  intro l
  induction l with
  | nil => simp [List.dropWhile, hc]
  | cons a l ih =>
    by_cases ha : p a
    · simpa [List.dropWhile, ha] using ih
    · simp [List.dropWhile, ha]

theorem mem_of_mem_dropWhile {p : Char → Bool} {c : Char} :
    ∀ {l : List Char}, c ∈ l.dropWhile p → c ∈ l := by
  intro l
  induction l with
  | nil => simp
  | cons a l ih =>
    intro h
    by_cases ha : p a = true
    · rw [List.dropWhile_cons_of_pos ha] at h
      exact List.mem_cons_of_mem _ (ih h)
    · rwa [List.dropWhile_cons_of_neg ha] at h

theorem mem_dropWhile_iff {p : Char → Bool} {c : Char} (hc : p c = false) :
    ∀ l : List Char, (c ∈ l.dropWhile p) ↔ c ∈ l := by
  intro l
  induction l with
  | nil => simp
  | cons a l ih =>
    by_cases ha : p a = true
    · rw [List.dropWhile_cons_of_pos ha, ih, List.mem_cons]
      constructor
      · exact Or.inr
      · rintro (h3 | h3)
        · rw [h3, ha] at hc; exact Bool.noConfusion hc
        · exact h3
    · rw [List.dropWhile_cons_of_neg ha]

theorem filter_dropWhile {p q : Char → Bool} (h : ∀ c, q c = true → p c = false) :
    ∀ l : List Char, (l.dropWhile q).filter p = l.filter p := by
  intro l
  induction l with
  | nil => rfl
  | cons a l ih =>
    by_cases ha : q a = true
    · rw [List.dropWhile_cons_of_pos ha, ih, List.filter_cons, h a ha]
      simp
    · rw [List.dropWhile_cons_of_neg ha]

/-- Drop trailing whitespace. -/
def rdropWS (l : List Char) : List Char := (l.reverse.dropWhile isWS).reverse

theorem jsTrim_as_rdrop (l : List Char) : jsTrim l = rdropWS (l.dropWhile isWS) := rfl

theorem rdropWS_append_singleton {c : Char} (hc : isWS c = false) (l : List Char) :
    rdropWS (l ++ [c]) = l ++ [c] := by
  unfold rdropWS
  rw [List.reverse_append, List.reverse_singleton, List.singleton_append,
    List.dropWhile_cons_of_neg (by simp [hc]), List.reverse_cons, List.reverse_reverse]

theorem rdropWS_cons {c : Char} (hc : isWS c = false) (l : List Char) :
    rdropWS (c :: l) = c :: rdropWS l := by
  unfold rdropWS
  rw [List.reverse_cons, dropWhile_append_singleton hc, List.reverse_append,
    List.reverse_singleton, List.singleton_append]

theorem jsTrim_cons {c : Char} (hc : isWS c = false) (l : List Char) :
    jsTrim (c :: l) = c :: rdropWS l := by
  rw [jsTrim_as_rdrop, List.dropWhile_cons_of_neg (by simp [hc]), rdropWS_cons hc]

theorem jsTrim_append_singleton {c : Char} (hc : isWS c = false) (l : List Char) :
    jsTrim (l ++ [c]) = l.dropWhile isWS ++ [c] := by
  rw [jsTrim_as_rdrop, dropWhile_append_singleton hc, rdropWS_append_singleton hc]

theorem mem_rdropWS_iff {c : Char} (hc : isWS c = false) (l : List Char) :
    c ∈ rdropWS l ↔ c ∈ l := by
  unfold rdropWS
  rw [List.mem_reverse, mem_dropWhile_iff hc, List.mem_reverse]

theorem mem_jsTrim_iff {c : Char} (hc : isWS c = false) (l : List Char) :
    c ∈ jsTrim l ↔ c ∈ l := by
  rw [jsTrim_as_rdrop, mem_rdropWS_iff hc, mem_dropWhile_iff hc]

theorem filter_rdropWS {p : Char → Bool} (h : ∀ c, isWS c = true → p c = false)
    (l : List Char) : (rdropWS l).filter p = l.filter p := by
  unfold rdropWS
  rw [List.filter_reverse, filter_dropWhile h, List.filter_reverse, List.reverse_reverse]

theorem filter_jsTrim {p : Char → Bool} (h : ∀ c, isWS c = true → p c = false)
    (l : List Char) : (jsTrim l).filter p = l.filter p := by
  rw [jsTrim_as_rdrop, filter_rdropWS h, filter_dropWhile h]

theorem rdropWS_eq_nil_iff (l : List Char) :
    rdropWS l = [] ↔ ∀ c ∈ l, isWS c = true := by
  unfold rdropWS
  rw [List.reverse_eq_nil_iff, List.dropWhile_eq_nil_iff]
  constructor
  · intro h c hc; exact h c (List.mem_reverse.mpr hc)
  · intro h c hc; exact h c (List.mem_reverse.mp hc)

theorem jsTrim_eq_nil_iff (l : List Char) :
    jsTrim l = [] ↔ ∀ c ∈ l, isWS c = true := by
  rw [jsTrim_as_rdrop, rdropWS_eq_nil_iff]
  constructor
  · intro h c hc
    by_cases hw : isWS c = true
    · exact hw
    · exact h c ((mem_dropWhile_iff (by simpa using hw) l).mpr hc)
  · intro h c hc
    exact h c (mem_of_mem_dropWhile hc)

theorem head_dropWhile_false {p : Char → Bool} :
    ∀ (l : List Char) {c : Char} {rest : List Char},
      l.dropWhile p = c :: rest → p c = false := by
  intro l
  induction l with
  | nil => intro c rest h; exact absurd h (by simp)
  | cons a l ih =>
    intro c rest h
    by_cases ha : p a = true
    · rw [List.dropWhile_cons_of_pos ha] at h; exact ih h
    · rw [List.dropWhile_cons_of_neg ha] at h
      cases h
      simpa using ha

theorem contains_iff_mem (l : List Char) (c : Char) : l.contains c = true ↔ c ∈ l := by
  simp [List.contains]

theorem contains_congr {l m : List Char} {c : Char} (h : c ∈ l ↔ c ∈ m) :
    l.contains c = m.contains c := by
  rw [Bool.eq_iff_iff, contains_iff_mem, contains_iff_mem]
  exact h

theorem keepChar_of_ws {c : Char} (h : isWS c = true) : keepChar c = false := by
  simp only [isWS, decide_eq_true_eq] at h
  rcases h with h | h | h | h <;> subst h <;> decide

theorem combChar_of_ws {c : Char} (h : isWS c = true) :
    (keepChar c && (c != '%')) = false := by
  rw [keepChar_of_ws h, Bool.false_and]

theorem mem_of_head?_eq {l : List Char} {c : Char} (h : l.head? = some c) : c ∈ l := by
  cases l with
  | nil => exact absurd h (by simp)
  | cons a t =>
    rw [List.head?_cons] at h
    injection h with h
    exact h ▸ List.mem_cons_self a t

theorem mem_of_mem_jsTrim {l : List Char} {c : Char} (h : c ∈ jsTrim l) : c ∈ l := by
  unfold jsTrim at h
  rw [List.mem_reverse] at h
  have h2 := mem_of_mem_dropWhile h
  rw [List.mem_reverse] at h2
  exact mem_of_mem_dropWhile h2

/-- A character stripped by `replace(/[^\d.,]/g, '')` that is also neither
a percent sign nor a minus: what a currency symbol or grouping text looks
like to `toNumber`. -/
def isCurrencyChar (c : Char) : Bool :=
  !(c.isDigit || c == '.' || c == ',' || c == '%' || c == '-')

theorem currencyChar_facts {c : Char} (h : isCurrencyChar c = true) :
    keepChar c = false ∧ c ≠ '%' ∧ c ≠ '-' := by
  simp only [isCurrencyChar, Bool.not_eq_true', Bool.or_eq_false_iff,
    beq_eq_false_iff_ne, ne_eq] at h
  obtain ⟨⟨⟨⟨h1, h2⟩, h3⟩, h4⟩, h5⟩ := h
  exact ⟨by simp [keepChar, h1, h2, h3], h4, h5⟩

theorem toNumberCore_no_digits {v : List Char} (hd : ∀ c ∈ v, c.isDigit = false)
    (hk : ∀ c ∈ v, keepChar c = true) (n p : Bool) : toNumberCore v n p = 0 := by
  unfold toNumberCore
  by_cases hv : v = []
  · rw [if_pos hv]
  · rw [if_neg hv]
    obtain ⟨c, t, rfl⟩ := List.exists_cons_of_ne_nil hv
    have hc : c.isDigit = false := hd c (List.mem_cons_self c t)
    have htw : (c :: t).takeWhile Char.isDigit = [] := by
      rw [List.takeWhile_cons_of_neg (by simp [hc])]
    have hp1 : isP1 (c :: t) = false := by
      unfold isP1; rw [htw]; simp
    have hp2 : isP2 (c :: t) = false := by
      unfold isP2; rw [htw]; simp
    have hp3 : isP3 (c :: t) = false := by
      unfold isP3; rw [htw]; simp
    rw [hp1, hp2, hp3]
    have hfil : (c :: t).filter (fun x => !(x == '.' || x == ',')) = [] := by
      rw [List.filter_eq_nil_iff]
      intro a ha
      have hka := hk a ha
      have hda := hd a ha
      simp only [keepChar, hda, Bool.false_or] at hka
      have hor : a = '.' ∨ a = ',' := by simpa using hka
      rcases hor with h | h <;> subst h <;> decide
    simp only [Bool.false_eq_true, if_false, hfil]
    have : jsParseFloat [] = none := rfl
    rw [this]
    cases n <;> cases p <;> simp

theorem toNumberCore_neg (v : List Char) (p : Bool) :
    toNumberCore v true p = -(toNumberCore v false p) := by
  unfold toNumberCore
  by_cases hv : v = []
  · simp [hv]
  · rw [if_neg hv, if_neg hv]
    by_cases hp : p <;> simp [hp, neg_div]

theorem toNumberCore_pct (v : List Char) (n : Bool) :
    toNumberCore v n true = toNumberCore v n false / 100 := by
  unfold toNumberCore
  by_cases hv : v = []
  · simp [hv]
  · rw [if_neg hv, if_neg hv]
    simp

/-- Canonical form of `toNumberStr` on inputs without a minus sign: the
sign flag is off and the cleaned string is a plain filter of the input. -/
theorem toNumberStr_of_no_minus (s : String) (hm : '-' ∉ s.data)
    (hne : ¬ ∀ c ∈ s.data, isWS c = true) :
    toNumberStr s =
      toNumberCore (s.data.filter fun c => keepChar c && (c != '%')) false
        (s.data.contains '%') := by
  have h1 : jsTrim s.data ≠ [] := fun h => hne ((jsTrim_eq_nil_iff s.data).mp h)
  have h2 : jsTrim s.data ≠ ['-'] := by
    intro h
    exact hm (mem_of_mem_jsTrim (h ▸ List.mem_singleton_self '-'))
  have hneg : ¬ (((jsTrim s.data).filter (· != '%')).head? = some '-') := by
    intro h
    exact hm (mem_of_mem_jsTrim (List.mem_of_mem_filter (mem_of_head?_eq h)))
  simp only [toNumberStr]
  rw [if_neg (not_or.mpr ⟨h1, h2⟩), if_neg hneg, decide_eq_false hneg,
    List.filter_filter, filter_jsTrim (fun c hc => combChar_of_ws hc),
    contains_congr (mem_jsTrim_iff (by decide) s.data)]

/-! Staged-evaluation helpers: they let a concrete run of `toNumberStr` be
established by small kernel-checked list computations plus `norm_num`
arithmetic, avoiding one deep reduction. -/

theorem toNumberStr_eval_concrete (s : String) (v4 : List Char) (pct : Bool)
    (h0 : ¬(jsTrim s.data = [] ∨ jsTrim s.data = ['-']))
    (hneg : ¬ ((jsTrim s.data).filter (· != '%')).head? = some '-')
    (hv4 : ((jsTrim s.data).filter (· != '%')).filter keepChar = v4)
    (hpct : (jsTrim s.data).contains '%' = pct) :
    toNumberStr s = toNumberCore v4 false pct := by
  simp only [toNumberStr]
  rw [if_neg h0, if_neg hneg, decide_eq_false hneg, hv4, hpct]

theorem jsParseFloat_eq_some {cs : List Char} {n : Bool} {i f : List Char}
    (h : floatParts cs = some (n, i, f)) : jsParseFloat cs = some (floatVal n i f) := by
  unfold jsParseFloat
  rw [h]
  rfl

theorem floatVal_eval (n : Bool) (i f : List Char) (a b k : ℕ)
    (ha : digitsVal i = a) (hb : digitsVal f = b) (hk : f.length = k) :
    floatVal n i f = if n then -((a : ℚ) + b / 10 ^ k) else (a : ℚ) + b / 10 ^ k := by
  unfold floatVal
  rw [ha, hb, hk]

theorem toNumberCore_eval_P1 (v : List Char) (q : ℚ) (neg pct : Bool)
    (hv : v ≠ []) (h1 : isP1 v = true)
    (hq : jsParseFloat (replaceFirstComma (v.filter (· != '.'))) = some q) :
    toNumberCore v neg pct =
      (if pct then (if neg then -q else q) / 100 else if neg then -q else q) := by
  unfold toNumberCore
  rw [if_neg hv, h1, if_pos rfl, hq]
  rfl

theorem toNumberCore_eval_P2 (v : List Char) (q : ℚ) (neg pct : Bool)
    (hv : v ≠ []) (h1 : isP1 v = false) (h2 : isP2 v = true)
    (hq : jsParseFloat (v.filter (· != ',')) = some q) :
    toNumberCore v neg pct =
      (if pct then (if neg then -q else q) / 100 else if neg then -q else q) := by
  unfold toNumberCore
  rw [if_neg hv, h1, h2]
  simp only [Bool.false_eq_true, if_false, if_true, hq]
  rfl

theorem toNumberCore_eval_P3 (v : List Char) (q : ℚ) (neg pct : Bool)
    (hv : v ≠ []) (h1 : isP1 v = false) (h2 : isP2 v = false) (h3 : isP3 v = true)
    (hc : v.contains ',' = false) (hq : jsParseFloat v = some q) :
    toNumberCore v neg pct =
      (if pct then (if neg then -q else q) / 100 else if neg then -q else q) := by
  unfold toNumberCore
  rw [if_neg hv, h1, h2, h3, hc]
  simp only [Bool.false_eq_true, if_false, if_true, hq]
  rfl

/-- Currency/unit text before the numeric part is stripped: it changes
neither the kept characters nor any flag. -/
theorem toNumberStr_currency_left (p s : String)
    (hp : ∀ c ∈ p.data, isCurrencyChar c = true) (hs : '-' ∉ s.data) :
    toNumberStr (p ++ s) = toNumberStr s := by
  have hts : ('-' : Char) ∉ (p ++ s).data := by
    rw [String.data_append, List.mem_append]
    rintro (h | h)
    · exact (currencyChar_facts (hp _ h)).2.2 rfl
    · exact hs h
  have hfp : p.data.filter (fun c => keepChar c && (c != '%')) = [] := by
    rw [List.filter_eq_nil_iff]
    intro a ha
    rw [(currencyChar_facts (hp a ha)).1, Bool.false_and]
    simp
  have hpctp : ('%' : Char) ∉ p.data := fun h => (currencyChar_facts (hp _ h)).2.1 rfl
  by_cases hallS : ∀ c ∈ s.data, isWS c = true
  · by_cases hallP : ∀ c ∈ (p ++ s).data, isWS c = true
    · unfold toNumberStr
      rw [if_pos (Or.inl ((jsTrim_eq_nil_iff _).mpr hallP)),
        if_pos (Or.inl ((jsTrim_eq_nil_iff _).mpr hallS))]
    · have hR : toNumberStr s = 0 := by
        unfold toNumberStr
        rw [if_pos (Or.inl ((jsTrim_eq_nil_iff _).mpr hallS))]
      rw [hR, toNumberStr_of_no_minus _ hts hallP]
      apply toNumberCore_no_digits
      · intro c hc
        rw [String.data_append, List.filter_append, hfp, List.nil_append] at hc
        have h1 := (List.mem_filter.mp hc).2
        have hw := hallS c (List.mem_filter.mp hc).1
        rw [combChar_of_ws hw] at h1
        exact absurd h1 (by simp)
      · intro c hc
        have h1 := (List.mem_filter.mp hc).2
        simp only [Bool.and_eq_true] at h1
        exact h1.1
  · have hallT : ¬ ∀ c ∈ (p ++ s).data, isWS c = true := by
      intro h
      apply hallS
      intro c hc
      exact h c (by rw [String.data_append, List.mem_append]; exact Or.inr hc)
    have hcc : (((p ++ s).data).contains '%') = s.data.contains '%' := by
      apply contains_congr
      rw [String.data_append, List.mem_append]
      exact or_iff_right hpctp
    rw [toNumberStr_of_no_minus _ hts hallT, toNumberStr_of_no_minus s hs hallS, hcc,
      String.data_append, List.filter_append, hfp, List.nil_append]

/-- A single leading minus negates the result. -/
theorem toNumberStr_minus (s : String) (hm : '-' ∉ s.data) :
    toNumberStr ("-" ++ s) = -toNumberStr s := by
  have hdata : ("-" ++ s).data = '-' :: s.data := by
    rw [String.data_append]; rfl
  by_cases hall : ∀ c ∈ s.data, isWS c = true
  · have hL : jsTrim (("-" ++ s).data) = ['-'] := by
      rw [hdata, jsTrim_cons (by decide), (rdropWS_eq_nil_iff s.data).mpr hall]
    have hR : toNumberStr s = 0 := by
      unfold toNumberStr
      rw [if_pos (Or.inl ((jsTrim_eq_nil_iff _).mpr hall))]
    have hL2 : toNumberStr ("-" ++ s) = 0 := by
      unfold toNumberStr
      rw [if_pos (Or.inr hL)]
    rw [hL2, hR, neg_zero]
  · have hmne : rdropWS s.data ≠ [] := by
      rw [Ne, rdropWS_eq_nil_iff]; exact hall
    have hv1 : jsTrim (("-" ++ s).data) = '-' :: rdropWS s.data := by
      rw [hdata, jsTrim_cons (by decide)]
    have hno : ¬(jsTrim (("-" ++ s).data) = [] ∨ jsTrim (("-" ++ s).data) = ['-']) := by
      rw [hv1]
      rintro (h | h)
      · exact List.noConfusion h
      · injection h with h1 h2
        exact hmne h2
    have hfil2 : ('-' :: rdropWS s.data).filter (· != '%') =
        '-' :: (rdropWS s.data).filter (· != '%') := by
      rw [List.filter_cons_of_pos (by decide)]
    have hpct : (('-' :: rdropWS s.data).contains '%') = s.data.contains '%' := by
      apply contains_congr
      rw [List.mem_cons, mem_rdropWS_iff (by decide)]
      simp
    have hRHS := toNumberStr_of_no_minus s hm hall
    rw [hRHS]
    simp only [toNumberStr]
    rw [if_neg hno, hv1, hfil2]
    have hcond : (('-' :: List.filter (fun x => x != '%') (rdropWS s.data)).head? =
        some '-') := rfl
    rw [if_pos hcond, decide_eq_true hcond,
      List.tail_cons, List.filter_filter,
      filter_rdropWS (fun c hc => combChar_of_ws hc), hpct, toNumberCore_neg]

/-- A trailing percent sign divides the parsed value by 100. -/
theorem toNumberStr_percent (s : String) (hp : '%' ∉ s.data) :
    toNumberStr (s ++ "%") = toNumberStr s / 100 := by
  have hdata : (s ++ "%").data = s.data ++ ['%'] := by
    rw [String.data_append]
  have hv1 : jsTrim ((s ++ "%").data) = s.data.dropWhile isWS ++ ['%'] := by
    rw [hdata, jsTrim_append_singleton (by decide)]
  by_cases hall : ∀ c ∈ s.data, isWS c = true
  · have hdw : s.data.dropWhile isWS = [] := by
      rw [List.dropWhile_eq_nil_iff]; exact hall
    have hR : toNumberStr s = 0 := by
      unfold toNumberStr
      rw [if_pos (Or.inl ((jsTrim_eq_nil_iff _).mpr hall))]
    have hL : toNumberStr (s ++ "%") = 0 := by
      simp only [toNumberStr]
      rw [hv1, hdw, List.nil_append]
      decide
    rw [hL, hR, zero_div]
  · obtain ⟨c, rest, hcr⟩ : ∃ c rest, s.data.dropWhile isWS = c :: rest := by
      rcases hx : s.data.dropWhile isWS with _ | ⟨c, rest⟩
      · exact absurd ((List.dropWhile_eq_nil_iff).mp hx) hall
      · exact ⟨c, rest, rfl⟩
    have hcws : isWS c = false := head_dropWhile_false s.data hcr
    have hpd : ('%' : Char) ∉ s.data.dropWhile isWS := fun h => hp (mem_of_mem_dropWhile h)
    have hfid : (s.data.dropWhile isWS).filter (· != '%') = s.data.dropWhile isWS := by
      rw [List.filter_eq_self]
      intro a ha
      simp only [bne_iff_ne, ne_eq]
      exact fun h => hpd (h ▸ ha)
    have hnoL : ¬(jsTrim ((s ++ "%").data) = [] ∨ jsTrim ((s ++ "%").data) = ['-']) := by
      rw [hv1, hcr]
      rintro (h | h) <;>
        · have hlen := congrArg List.length h
          simp [List.length_append] at hlen
    have hpctL : ((s.data.dropWhile isWS ++ ['%']).contains '%') = true := by
      rw [contains_iff_mem, List.mem_append]
      exact Or.inr (List.mem_singleton_self '%')
    have hfilL : ((s.data.dropWhile isWS ++ ['%']).filter (· != '%')) =
        s.data.dropWhile isWS := by
      rw [List.filter_append, hfid,
        show List.filter (fun x => x != '%') ['%'] = [] from by decide, List.append_nil]
    have hv1R : jsTrim s.data = c :: rdropWS rest := by
      rw [jsTrim_as_rdrop, hcr, rdropWS_cons hcws]
    by_cases hdash : jsTrim s.data = ['-']
    · -- the trimmed input is exactly "-": both sides are 0
      have hdd := hv1R.symm.trans hdash
      simp only [List.cons.injEq] at hdd
      have hcdash : c = '-' := hdd.1
      have hrw : rdropWS rest = [] := hdd.2
      have hrall : ∀ x ∈ rest, isWS x = true := (rdropWS_eq_nil_iff rest).mp hrw
      have hR : toNumberStr s = 0 := by
        unfold toNumberStr
        rw [if_pos (Or.inr hdash)]
      rw [hR, zero_div]
      have hposd : ((s.data.dropWhile isWS).head? = some '-') := by
        rw [hcr, hcdash]
        rfl
      simp only [toNumberStr]
      rw [if_neg hnoL, hv1, hfilL]
      rw [if_pos hposd, decide_eq_true hposd, hcr, List.tail_cons]
      apply toNumberCore_no_digits
      · intro x hx
        have hxw := hrall x (List.mem_filter.mp hx).1
        have h1 := (List.mem_filter.mp hx).2
        rw [keepChar_of_ws hxw] at h1
        exact absurd h1 (by simp)
      · intro x hx
        exact (List.mem_filter.mp hx).2
    · -- main case: both sides run the full pipeline
      have hnoR : ¬(jsTrim s.data = [] ∨ jsTrim s.data = ['-']) := by
        rintro (h2 | h2)
        · rw [hv1R] at h2; exact List.noConfusion h2
        · exact hdash h2
      have hpctR : ((jsTrim s.data).contains '%') = false := by
        rw [Bool.eq_false_iff, Ne, contains_iff_mem]
        intro h
        exact hp (mem_of_mem_jsTrim h)
      have hfilR : ((jsTrim s.data).filter (· != '%')) = jsTrim s.data := by
        rw [List.filter_eq_self]
        intro a ha
        simp only [bne_iff_ne, ne_eq]
        intro h
        exact hp (mem_of_mem_jsTrim (h ▸ ha))
      simp only [toNumberStr]
      rw [if_neg hnoL, if_neg hnoR, hv1, hfilL, hpctL, hfilR, hpctR, hv1R, hcr]
      by_cases hneg : c = '-'
      · subst hneg
        have hc1 : ((('-' : Char) :: rest).head? = some '-') := rfl
        have hc2 : ((('-' : Char) :: rdropWS rest).head? = some '-') := rfl
        rw [if_pos hc1, if_pos hc2, decide_eq_true hc1, decide_eq_true hc2,
          List.tail_cons, List.tail_cons, filter_rdropWS (fun x hx => keepChar_of_ws hx),
          toNumberCore_pct]
      · have hq1 : ¬((c :: rest).head? = some '-') := by
          rw [List.head?_cons]
          intro h; injection h with h; exact hneg h
        have hq2 : ¬((c :: rdropWS rest).head? = some '-') := by
          rw [List.head?_cons]
          intro h; injection h with h; exact hneg h
        rw [if_neg hq1, if_neg hq2, decide_eq_false hq1, decide_eq_false hq2]
        have hsame : (c :: rdropWS rest).filter keepChar = (c :: rest).filter keepChar := by
          rw [show (c :: rdropWS rest) = rdropWS (c :: rest) from (rdropWS_cons hcws _).symm,
            filter_rdropWS (fun x hx => keepChar_of_ws hx)]
        rw [hsame, toNumberCore_pct]

/-- An input without any digit character coerces to `0`. -/
theorem toNumberStr_no_digits (s : String) (h : ∀ c ∈ s.data, c.isDigit = false) :
    toNumberStr s = 0 := by
  simp only [toNumberStr]
  by_cases h0 : jsTrim s.data = [] ∨ jsTrim s.data = ['-']
  · rw [if_pos h0]
  · rw [if_neg h0]
    have hchain : ∀ c : Char,
        c ∈ ((if ((jsTrim s.data).filter (· != '%')).head? = some '-'
              then ((jsTrim s.data).filter (· != '%')).tail
              else (jsTrim s.data).filter (· != '%')).filter keepChar) →
          c ∈ s.data := by
      intro c hc
      have hm := (List.mem_filter.mp hc).1
      have hm2 : c ∈ (jsTrim s.data).filter (· != '%') := by
        split at hm
        · exact List.mem_of_mem_tail hm
        · exact hm
      exact mem_of_mem_jsTrim (List.mem_of_mem_filter hm2)
    apply toNumberCore_no_digits
    · intro c hc
      exact h c (hchain c hc)
    · intro c hc
      exact (List.mem_filter.mp hc).2

/-- C5.  `toNumber` strips currency/unit text, normalizes both the
`1.234,56` and the `1,234.56` separator conventions, returns `0` for empty
or digit-free (unparsable) input, honors a leading minus sign, and divides
the result by 100 when a percent marker is present. -/
theorem c5_toNumber_coercion :
    (∀ p s : String, (∀ c ∈ p.data, isCurrencyChar c = true) → '-' ∉ s.data →
        toNumberStr (p ++ s) = toNumberStr s) ∧
    toNumberStr "1.234,56" = 123456 / 100 ∧
    toNumberStr "1,234.56" = 123456 / 100 ∧
    toNumberStr "" = 0 ∧
    (∀ s : String, (∀ c ∈ s.data, c.isDigit = false) → toNumberStr s = 0) ∧
    (∀ s : String, '-' ∉ s.data → toNumberStr ("-" ++ s) = -toNumberStr s) ∧
    (∀ s : String, '%' ∉ s.data → toNumberStr (s ++ "%") = toNumberStr s / 100) := by
  refine ⟨toNumberStr_currency_left, ?_, ?_, ?_, toNumberStr_no_digits, toNumberStr_minus,
    toNumberStr_percent⟩
  · rw [toNumberStr_eval_concrete "1.234,56" ("1.234,56".data) false (by decide) (by decide)
      (by decide) (by decide)]
    rw [toNumberCore_eval_P1 _ (floatVal false ['1', '2', '3', '4'] ['5', '6']) false false
      (by decide) (by decide) (jsParseFloat_eq_some (by decide))]
    rw [floatVal_eval false _ _ 1234 56 2 (by decide) (by decide) (by decide)]
    norm_num
  · rw [toNumberStr_eval_concrete "1,234.56" ("1,234.56".data) false (by decide) (by decide)
      (by decide) (by decide)]
    rw [toNumberCore_eval_P2 _ (floatVal false ['1', '2', '3', '4'] ['5', '6']) false false
      (by decide) (by decide) (by decide) (jsParseFloat_eq_some (by decide))]
    rw [floatVal_eval false _ _ 1234 56 2 (by decide) (by decide) (by decide)]
    norm_num
  · unfold toNumberStr
    rw [if_pos (Or.inl (by decide))]

/-- Witness for C5 at concrete inputs. -/
theorem c5_toNumber_coercion_witness :
    toNumberStr ("Rp " ++ "1.500") = toNumberStr "1.500" ∧
    toNumberStr ("-" ++ "5") = -toNumberStr "5" ∧
    toNumberStr ("50" ++ "%") = toNumberStr "50" / 100 ∧
    toNumberStr "abc" = 0 :=
  ⟨c5_toNumber_coercion.1 "Rp " "1.500" (by decide) (by decide),
   c5_toNumber_coercion.2.2.2.2.2.1 "5" (by decide),
   c5_toNumber_coercion.2.2.2.2.2.2 "50" (by decide),
   c5_toNumber_coercion.2.2.2.2.1 "abc" (by decide)⟩

/-! ## Circular-dependency detection (`detectCircularDependency`) -/

/-- The push-and-trim phase of the main detection path: append the
candidate, cap the history at 10 entries (one `shift`), then test the
2-cycle oscillation pattern over the last four entries. -/
def detectPush (history : List ℚ) (v : ℚ) : Bool × List ℚ :=
  let h2 := if 10 < (history ++ [v]).length then (history ++ [v]).tail else history ++ [v]
  if 4 ≤ h2.length ∧ convergedQ (h2.getD (h2.length - 1) 0) (h2.getD (h2.length - 3) 0) = true ∧
      convergedQ (h2.getD (h2.length - 2) 0) (h2.getD (h2.length - 4) 0) = true
  then (true, h2) else (false, h2)

/-- The lenient bidirectional path's push: append and cap at 8 entries. -/
def lenientPush (history : List ℚ) (v : ℚ) : List ℚ :=
  if 8 < (history ++ [v]).length then (history ++ [v]).tail else history ++ [v]

/-- Embedding of `detectCircularDependency(element, newValue, sourceElement,
isBidirectional)` for one node: `hasBidirPeer` states that `sourceElement`
is non-null and among the node's tracked bidirectional peers.  Returns the
stability verdict and the node's updated value history.  (The function's
side write of `sourceElement` into the bidirectional tracking map is not
modelled; it does not affect the verdict or the history.) -/
def detectCircularDependency (hasBidirPeer isBidirectional : Bool)
    (history : List ℚ) (v : ℚ) : Bool × List ℚ :=
  if hasBidirPeer then
    if isBidirectional then
      match history.getLast? with
      | some last =>
          if convergedQ last v then (true, history) else (false, lenientPush history v)
      | none => (false, lenientPush history v)
    else (false, history)
  else
    match history.getLast? with
    | some last => if convergedQ last v then (true, history) else detectPush history v
    | none => detectPush history v

/-- The claim's wording of stability: the newest candidate converges with
the immediately preceding history entry, or the last four entries of the
history extended with the candidate form a 2-cycle oscillation
(`h[n] ≈ h[n-2]` and `h[n-1] ≈ h[n-3]`). -/
def stableSpec (history : List ℚ) (v : ℚ) : Prop :=
  (∃ last, history.getLast? = some last ∧ convergedQ last v = true) ∨
  (4 ≤ (history ++ [v]).length ∧
    convergedQ ((history ++ [v]).getD ((history ++ [v]).length - 1) 0)
      ((history ++ [v]).getD ((history ++ [v]).length - 3) 0) = true ∧
    convergedQ ((history ++ [v]).getD ((history ++ [v]).length - 2) 0)
      ((history ++ [v]).getD ((history ++ [v]).length - 4) 0) = true)

theorem fst_ite_pair {c : Prop} [Decidable c] {x y : List ℚ} :
    ((if c then ((true : Bool), x) else ((false : Bool), y)).1 = true) ↔ c := by
  split
  · next h => simpa using h
  · next h => simpa using h

theorem snd_ite_pair {c : Prop} [Decidable c] {x : List ℚ} :
    ((if c then ((true : Bool), x) else ((false : Bool), x)).2) = x := by
  split <;> rfl

theorem getD_tail (l : List ℚ) (i : ℕ) (d : ℚ) : l.tail.getD i d = l.getD (i + 1) d := by
  cases l with
  | nil => rfl
  | cons a t => simp [List.getD]

theorem detectPush_spec (history : List ℚ) (v : ℚ) (hlen : history.length ≤ 10) :
    (((detectPush history v).1 = true) ↔
      (4 ≤ (history ++ [v]).length ∧
        convergedQ ((history ++ [v]).getD ((history ++ [v]).length - 1) 0)
          ((history ++ [v]).getD ((history ++ [v]).length - 3) 0) = true ∧
        convergedQ ((history ++ [v]).getD ((history ++ [v]).length - 2) 0)
          ((history ++ [v]).getD ((history ++ [v]).length - 4) 0) = true)) ∧
    (detectPush history v).2.length ≤ 10 := by
  have hl1 : (history ++ [v]).length = history.length + 1 := by
    rw [List.length_append, List.length_singleton]
  simp only [detectPush]
  by_cases hc : 10 < (history ++ [v]).length
  · have h11 : (history ++ [v]).length = 11 := by omega
    have hlt : ((history ++ [v]).tail).length = 10 := by
      rw [List.length_tail, h11]
    rw [if_pos hc]
    constructor
    · rw [fst_ite_pair, hlt, h11]
      norm_num
      try rw [getD_tail, getD_tail, getD_tail, getD_tail]
      try norm_num
    · rw [snd_ite_pair, hlt]
  · rw [if_neg hc]
    constructor
    · rw [fst_ite_pair]
    · rw [snd_ite_pair]
      omega

/-- C1.  For a node that is not updating in response to a declared
bidirectional peer (`hasBidirPeer = false`, any `isBidirectional` flag),
the candidate is declared stable iff it converges with the immediately
preceding history entry or the last four history entries (including the
pushed candidate) form a 2-cycle oscillation; the history stays bounded by
10 entries. -/
theorem c1_stability (b : Bool) (history : List ℚ) (v : ℚ)
    (hlen : history.length ≤ 10) :
    (((detectCircularDependency false b history v).1 = true) ↔ stableSpec history v) ∧
    (detectCircularDependency false b history v).2.length ≤ 10 := by
  unfold detectCircularDependency
  rw [if_neg (by simp)]
  cases hgl : history.getLast? with
  | none =>
    have hnil : history = [] := List.getLast?_eq_none_iff.mp hgl
    subst hnil
    unfold stableSpec
    refine ⟨?_, (detectPush_spec [] v (by simp)).2⟩
    rw [(detectPush_spec [] v (by simp)).1]
    constructor
    · exact fun h => Or.inr h
    · rintro (⟨last, hl, -⟩ | h)
      · exact Option.noConfusion hl
      · exact h
  | some last =>
    dsimp only
    by_cases hcv : convergedQ last v = true
    · rw [if_pos hcv]
      unfold stableSpec
      exact ⟨iff_of_true rfl (Or.inl ⟨last, hgl, hcv⟩), hlen⟩
    · rw [if_neg hcv]
      unfold stableSpec
      refine ⟨?_, (detectPush_spec history v hlen).2⟩
      rw [(detectPush_spec history v hlen).1]
      constructor
      · exact fun h => Or.inr h
      · rintro (⟨last', hl', hcv'⟩ | h)
        · rw [hgl] at hl'
          injection hl' with hl'
          subst hl'
          exact absurd hcv' hcv
        · exact h

/-- Witness for C1: a history `[5, 9, 5]` and candidate `9` (an actual
2-cycle oscillation). -/
theorem c1_stability_witness :
    (((detectCircularDependency false false [5, 9, 5] 9).1 = true) ↔ stableSpec [5, 9, 5] 9) ∧
    (detectCircularDependency false false [5, 9, 5] 9).2.length ≤ 10 :=
  c1_stability false [5, 9, 5] 9 (by decide)

/-! ## The full-sweep loop of `process` -/

/-- `const MAX_ITERATIONS = 3`. -/
def MAX_ITERATIONS : ℕ := 3

/-- Embedding of the re-pass loop at the end of `process`'s `processBatch`:
one `sweep` is a full pass over all tracked elements, returning the updated
tree state and the `hasChanges` flag.  After each sweep `iterationCount`
is incremented; the loop re-passes only while the sweep reported changes
and the counter is below `MAX_ITERATIONS`; on exit the `Bool` records
whether the cap was reached (the `console.warn` branch). -/
def processSweeps {S : Type} (sweep : S → S × Bool) (iter : ℕ) (s : S) : S × ℕ × Bool :=
  if h : (sweep s).2 = true ∧ iter + 1 < MAX_ITERATIONS then
    processSweeps sweep (iter + 1) (sweep s).1
  else ((sweep s).1, iter + 1, decide (MAX_ITERATIONS ≤ iter + 1))
termination_by MAX_ITERATIONS - iter
decreasing_by omega

/-- `n` full sweeps applied to a state. -/
def sweepIter {S : Type} (sweep : S → S × Bool) : ℕ → S → S
  | 0, s => s
  | n + 1, s => sweepIter sweep n (sweep s).1

theorem processSweeps_spec {S : Type} (sweep : S → S × Bool) :
    ∀ (n iter : ℕ) (s : S), iter < MAX_ITERATIONS → MAX_ITERATIONS - iter = n →
      iter + 1 ≤ (processSweeps sweep iter s).2.1 ∧
      (processSweeps sweep iter s).2.1 ≤ MAX_ITERATIONS ∧
      ((processSweeps sweep iter s).2.2 = true ↔
        (processSweeps sweep iter s).2.1 = MAX_ITERATIONS) ∧
      (processSweeps sweep iter s).1 =
        sweepIter sweep ((processSweeps sweep iter s).2.1 - iter) s := by
  intro n
  induction n with
  | zero =>
    intro iter s h1 h2
    omega
  | succ n ih =>
    intro iter s h1 h2
    rw [processSweeps]
    by_cases h : (sweep s).2 = true ∧ iter + 1 < MAX_ITERATIONS
    · rw [dif_pos h]
      have hrec := ih (iter + 1) (sweep s).1 h.2 (by omega)
      obtain ⟨hr1, hr2, hr3, hr4⟩ := hrec
      refine ⟨by omega, hr2, hr3, ?_⟩
      rw [hr4]
      obtain ⟨k, hk⟩ : ∃ k, (processSweeps sweep (iter + 1) (sweep s).1).2.1 - iter = k + 1 :=
        ⟨(processSweeps sweep (iter + 1) (sweep s).1).2.1 - iter - 1, by omega⟩
      rw [hk]
      have hk2 : (processSweeps sweep (iter + 1) (sweep s).1).2.1 - (iter + 1) = k := by omega
      rw [hk2, sweepIter]
    · rw [dif_neg h]
      dsimp only
      refine ⟨le_refl _, by omega, ?_, ?_⟩
      · simp only [decide_eq_true_eq]
        omega
      · have : iter + 1 - iter = 1 := by omega
        rw [this]
        rfl

/-- C4.  For any full-sweep function (hence any dependency graph, cyclic
ones included), the `process` re-pass loop performs between 1 and
`MAX_ITERATIONS = 3` sweeps, warns exactly when the cap is reached, and
leaves the state produced by the last sweep in place. -/
theorem c4_iteration_cap {S : Type} (sweep : S → S × Bool) (s : S) :
    1 ≤ (processSweeps sweep 0 s).2.1 ∧
    (processSweeps sweep 0 s).2.1 ≤ MAX_ITERATIONS ∧
    ((processSweeps sweep 0 s).2.2 = true ↔ (processSweeps sweep 0 s).2.1 = MAX_ITERATIONS) ∧
    (processSweeps sweep 0 s).1 = sweepIter sweep (processSweeps sweep 0 s).2.1 s := by
  have h := processSweeps_spec sweep MAX_ITERATIONS 0 s (by norm_num [MAX_ITERATIONS]) rfl
  obtain ⟨h1, h2, h3, h4⟩ := h
  refine ⟨h1, h2, h3, ?_⟩
  simpa using h4

/-! ## The update scheduler queue (`enqueueComputeUpdate`) -/

inductive Priority where
  | high
  | normal
  | low
deriving DecidableEq

/-- `const priorityOrder = { high: 3, normal: 2, low: 1 }`. -/
def priorityOrder : Priority → ℕ
  | .high => 3
  | .normal => 2
  | .low => 1

/-- A queue entry `{element, priority, sourceElement, timestamp}`; elements
are identified by numeric ids, and `sourceElement` plays no role in the
queue discipline so it is omitted. -/
structure QEntry where
  element : ℕ
  priority : Priority
  timestamp : ℕ
deriving DecidableEq

/-- The coalescing key: one pending entry per `(element, priority)`. -/
def qkey (e : QEntry) : ℕ × Priority := (e.element, e.priority)

/-- "a may sit before b" under the comparator
`priorityOrder[b.priority] - priorityOrder[a.priority] || a.timestamp - b.timestamp`:
the comparator is nonpositive on `(a, b)`. -/
def qle (a b : QEntry) : Bool :=
  priorityOrder b.priority < priorityOrder a.priority ∨
    (priorityOrder a.priority = priorityOrder b.priority ∧ a.timestamp ≤ b.timestamp)

/-- Stable insertion (model of the ES2019-stable `Array.prototype.sort`;
all stable sorts of a total preorder agree, so insertion sort is a
faithful model of the engine's sort call). -/
def insertLe (a : QEntry) : List QEntry → List QEntry
  | [] => [a]
  | b :: bs => if qle b a then b :: insertLe a bs else a :: b :: bs

def sortLe (l : List QEntry) : List QEntry := l.foldr insertLe []

/-- Embedding of `enqueueComputeUpdate(element, priority, sourceElement)`:
remove the existing `(element, priority)` entry if any, push a fresh entry
stamped `now`, sort by priority descending then timestamp ascending, and
cap the length: above 100 entries the queue is cut to its last 80
(`queue = queue.slice(-80)`). -/
def enqueueComputeUpdate (q : List QEntry) (el : ℕ) (p : Priority) (now : ℕ) : List QEntry :=
  let q1 := q.eraseP (fun e => e.element == el && e.priority == p)
  let q2 := sortLe (q1 ++ [⟨el, p, now⟩])
  if 100 < q2.length then q2.drop (q2.length - 80) else q2

theorem qle_total (a b : QEntry) : qle a b = true ∨ qle b a = true := by
  simp only [qle, decide_eq_true_eq]
  omega

theorem qle_trans {a b c : QEntry} (h1 : qle a b = true) (h2 : qle b c = true) :
    qle a c = true := by
  simp only [qle, decide_eq_true_eq] at h1 h2 ⊢
  omega

theorem insertLe_perm (a : QEntry) : ∀ l : List QEntry, List.Perm (insertLe a l) (a :: l) := by
  intro l
  induction l with
  | nil => rfl
  | cons b bs ih =>
    unfold insertLe
    by_cases h : qle b a = true
    · rw [if_pos h]
      exact (List.Perm.cons b ih).trans (List.Perm.swap a b bs)
    · rw [if_neg h]

theorem sortLe_perm : ∀ l : List QEntry, List.Perm (sortLe l) l := by
  intro l
  induction l with
  | nil => rfl
  | cons a t ih =>
    have : sortLe (a :: t) = insertLe a (sortLe t) := rfl
    rw [this]
    exact (insertLe_perm a (sortLe t)).trans (List.Perm.cons a ih)

theorem insertLe_sorted (a : QEntry) :
    ∀ l : List QEntry, List.Pairwise (fun x y => qle x y = true) l →
      List.Pairwise (fun x y => qle x y = true) (insertLe a l) := by
  intro l
  induction l with
  | nil => intro _; simp [insertLe]
  | cons b bs ih =>
    intro hp
    rw [List.pairwise_cons] at hp
    unfold insertLe
    by_cases h : qle b a = true
    · rw [if_pos h]
      rw [List.pairwise_cons]
      constructor
      · intro x hx
        have hx2 : x ∈ a :: bs := (insertLe_perm a bs).mem_iff.mp hx
        rcases List.mem_cons.mp hx2 with rfl | hx3
        · exact h
        · exact hp.1 x hx3
      · exact ih hp.2
    · rw [if_neg h]
      have hab : qle a b = true := (qle_total a b).resolve_right (by simpa using h)
      rw [List.pairwise_cons]
      constructor
      · intro x hx
        rcases List.mem_cons.mp hx with rfl | hx2
        · exact hab
        · exact qle_trans hab (hp.1 x hx2)
      · rw [List.pairwise_cons]
        exact hp

theorem sortLe_sorted : ∀ l : List QEntry,
    List.Pairwise (fun x y => qle x y = true) (sortLe l) := by
  intro l
  induction l with
  | nil => simp [sortLe]
  | cons a t ih => exact insertLe_sorted a (sortLe t) ih

theorem pred_iff_qkey (el : ℕ) (p : Priority) (x : QEntry) :
    ((x.element == el && x.priority == p) = true) ↔ qkey x = (el, p) := by
  simp [qkey, Prod.ext_iff]

theorem mem_eraseP_key (el : ℕ) (p : Priority) :
    ∀ l : List QEntry, (l.map qkey).Nodup →
      ∀ e ∈ l.eraseP (fun x => x.element == el && x.priority == p), qkey e ≠ (el, p) := by
  intro l
  induction l with
  | nil => intro _ e he; simp [List.eraseP] at he
  | cons a t ih =>
    intro hnd e he
    have hnd2 := hnd
    rw [List.map_cons, List.nodup_cons] at hnd2
    rw [List.eraseP_cons] at he
    by_cases ha : (a.element == el && a.priority == p) = true
    · rw [ha, cond_true] at he
      intro hk
      have hka : qkey a = (el, p) := (pred_iff_qkey el p a).mp ha
      have hmem : qkey e ∈ t.map qkey := List.mem_map_of_mem qkey he
      rw [hk, ← hka] at hmem
      exact hnd2.1 hmem
    · rw [Bool.eq_false_iff.mpr ha, cond_false] at he
      rcases List.mem_cons.mp he with rfl | he2
      · exact fun hk => ha ((pred_iff_qkey el p e).mpr hk)
      · exact ih hnd2.2 e he2

/-- C2 (amended).  After every `enqueueComputeUpdate` call on a queue with
unique `(element, priority)` keys and length within the cap: the keys stay
unique, the queue is ordered by priority descending then timestamp
ascending, its length stays ≤ 100 — and when the cap is exceeded the
truncation keeps a suffix of the sorted queue, i.e. the entries at the
front (the highest-priority, oldest ones) are dropped, not the oldest
low-value ones. -/
theorem c2_queue_invariants (q : List QEntry) (el : ℕ) (p : Priority) (now : ℕ)
    (hkeys : (q.map qkey).Nodup) (hlen : q.length ≤ 100) :
    ((enqueueComputeUpdate q el p now).map qkey).Nodup ∧
    List.Pairwise (fun a b => qle a b = true) (enqueueComputeUpdate q el p now) ∧
    (enqueueComputeUpdate q el p now).length ≤ 100 ∧
    (enqueueComputeUpdate q el p now) <:+
      sortLe (q.eraseP (fun e => e.element == el && e.priority == p) ++ [⟨el, p, now⟩]) := by
  have hq1sub : List.Sublist (q.eraseP (fun e => e.element == el && e.priority == p)) q :=
    List.eraseP_sublist q
  have hq1nd : ((q.eraseP (fun e => e.element == el && e.priority == p)).map qkey).Nodup :=
    List.Nodup.sublist (List.Sublist.map qkey hq1sub) hkeys
  have hpushnd :
      (((q.eraseP (fun e => e.element == el && e.priority == p)) ++
        [(⟨el, p, now⟩ : QEntry)]).map qkey).Nodup := by
    rw [List.map_append]
    rw [List.nodup_append]
    refine ⟨hq1nd, by simp, ?_⟩
    intro x hx
    have := List.mem_map.mp hx
    obtain ⟨e, he, rfl⟩ := this
    have hne := mem_eraseP_key el p q hkeys e he
    simp only [List.map_cons, List.map_nil, List.mem_singleton]
    intro hcontra
    exact hne (by rw [hcontra]; rfl)
  have hsortnd :
      ((sortLe ((q.eraseP (fun e => e.element == el && e.priority == p)) ++
        [⟨el, p, now⟩])).map qkey).Nodup :=
    ((sortLe_perm _).map qkey).nodup_iff.mpr hpushnd
  have hsorted := sortLe_sorted
    ((q.eraseP (fun e => e.element == el && e.priority == p)) ++ [⟨el, p, now⟩])
  have hslen : (sortLe ((q.eraseP (fun e => e.element == el && e.priority == p)) ++
      [⟨el, p, now⟩])).length ≤ 101 := by
    rw [(sortLe_perm _).length_eq, List.length_append, List.length_singleton]
    have := hq1sub.length_le
    omega
  unfold enqueueComputeUpdate
  by_cases hc : 100 <
      (sortLe ((q.eraseP (fun e => e.element == el && e.priority == p)) ++
        [⟨el, p, now⟩])).length
  · rw [if_pos hc]
    refine ⟨?_, ?_, ?_, ?_⟩
    · exact List.Nodup.sublist (List.Sublist.map qkey (List.drop_sublist _ _)) hsortnd
    · exact List.Pairwise.sublist (List.drop_sublist _ _) hsorted
    · rw [List.length_drop]
      omega
    · exact List.drop_suffix _ _
  · rw [if_neg hc]
    exact ⟨hsortnd, hsorted, by omega, List.suffix_refl _⟩

/-- Witness for C2's amended invariants at a concrete queue. -/
theorem c2_queue_invariants_witness :
    ((enqueueComputeUpdate [⟨1, .high, 0⟩, ⟨2, .low, 5⟩] 2 .low 7).map qkey).Nodup ∧
    List.Pairwise (fun a b => qle a b = true)
      (enqueueComputeUpdate [⟨1, .high, 0⟩, ⟨2, .low, 5⟩] 2 .low 7) ∧
    (enqueueComputeUpdate [⟨1, .high, 0⟩, ⟨2, .low, 5⟩] 2 .low 7).length ≤ 100 ∧
    (enqueueComputeUpdate [⟨1, .high, 0⟩, ⟨2, .low, 5⟩] 2 .low 7) <:+
      sortLe (([⟨1, .high, 0⟩, ⟨2, .low, 5⟩] : List QEntry).eraseP
        (fun e => e.element == 2 && e.priority == Priority.low) ++ [⟨2, .low, 7⟩]) :=
  c2_queue_invariants [⟨1, .high, 0⟩, ⟨2, .low, 5⟩] 2 .low 7 (by decide) (by decide)

/-- A full queue: 21 high-priority entries (timestamps 0–20) in front of
79 low-priority entries (timestamps 100–178), sorted, with unique keys. -/
def c2OverflowQueue : List QEntry :=
  (List.range 21).map (fun i => ⟨1000 + i, .high, i⟩) ++
    (List.range 79).map (fun i => ⟨i, .low, 100 + i⟩)

/-- Counterexample to C2 as stated: enqueuing one more low entry pushes the
queue over the cap, and the truncation `queue.slice(-80)` drops all 21
high-priority entries while every low entry — including the oldest one,
`(element 0, timestamp 100)` — survives.  The oldest low-value entries are
not dropped first; the highest-priority oldest ones are. -/
theorem c2_queue_drop_counterexample :
    c2OverflowQueue.countP (fun e => e.priority == Priority.high) = 21 ∧
    c2OverflowQueue.length = 100 ∧
    (enqueueComputeUpdate c2OverflowQueue 999 .low 1000).countP
      (fun e => e.priority == Priority.high) = 0 ∧
    (⟨0, .low, 100⟩ : QEntry) ∈ enqueueComputeUpdate c2OverflowQueue 999 .low 1000 :=
  ⟨by decide, by decide, by decide, by decide⟩

/-! ## Per-node error isolation in batch processing -/

/-- One batch entry: the node id and the outcome of compiling and
evaluating its expression through the sandboxed `new Function` call (a JS
builtin, so modelled abstractly): `Except.error` is a thrown
compile/evaluate error such as the one `foo(` produces. -/
structure BatchNode where
  id : ℕ
  compiled : Except Unit ℚ

/-- Embedding of `evaluateExpression`'s `try/catch` around
`safeFunctionEvaluation`: a thrown compile/evaluate failure is caught and
becomes the numeric result `0`. -/
def evaluateExpressionR (n : BatchNode) : ℚ :=
  match n.compiled with
  | .ok v => v
  | .error _ => 0

/-- Embedding of the per-element loop of `processBatchWithQueue`: each
element is evaluated independently and the loop continues past every
element. -/
def processNodesR : List BatchNode → List (ℕ × ℚ)
  | [] => []
  | n :: rest => (n.id, evaluateExpressionR n) :: processNodesR rest

theorem processNodesR_append (xs ys : List BatchNode) :
    processNodesR (xs ++ ys) = processNodesR xs ++ processNodesR ys := by
  induction xs with
  | nil => rfl
  | cons a t ih =>
    rw [List.cons_append,
      show processNodesR (a :: (t ++ ys)) =
        (a.id, evaluateExpressionR a) :: processNodesR (t ++ ys) from rfl,
      show processNodesR (a :: t) = (a.id, evaluateExpressionR a) :: processNodesR t from rfl,
      ih, List.cons_append]

theorem processNodesR_length (xs : List BatchNode) :
    (processNodesR xs).length = xs.length := by
  induction xs with
  | nil => rfl
  | cons a t ih =>
    rw [show processNodesR (a :: t) = (a.id, evaluateExpressionR a) :: processNodesR t from rfl,
      List.length_cons, List.length_cons, ih]

/-- C7.  A node whose expression fails to compile or evaluate is caught
and contributes the result `0`, while every other node of the batch —
before and after it — is still evaluated with an unchanged result: no
expression failure aborts the batch. -/
theorem c7_error_isolation (xs ys : List BatchNode) (n : BatchNode)
    (hn : n.compiled = .error ()) :
    processNodesR (xs ++ n :: ys) =
      processNodesR xs ++ (n.id, 0) :: processNodesR ys ∧
    (processNodesR (xs ++ n :: ys)).length = xs.length + 1 + ys.length := by
  have hz : evaluateExpressionR n = 0 := by
    unfold evaluateExpressionR; rw [hn]
  constructor
  · rw [processNodesR_append,
      show processNodesR (n :: ys) = (n.id, evaluateExpressionR n) :: processNodesR ys from rfl,
      hz]
  · rw [processNodesR_length, List.length_append, List.length_cons]
    omega

/-- Witness for C7: a three-node batch whose middle node fails. -/
theorem c7_error_isolation_witness :
    processNodesR ([⟨1, .ok 5⟩] ++ ⟨2, .error ()⟩ :: [⟨3, .ok 7⟩]) =
      processNodesR [⟨1, .ok 5⟩] ++ (2, 0) :: processNodesR [⟨3, .ok 7⟩] ∧
    (processNodesR ([⟨1, .ok 5⟩] ++ ⟨2, .error ()⟩ :: [⟨3, .ok 7⟩])).length = 1 + 1 + 1 :=
  c7_error_isolation [⟨1, .ok 5⟩] [⟨3, .ok 7⟩] ⟨2, .error ()⟩ rfl

/-! ## Write-back protections (`updateElementValue`) -/

/-- The element state `updateElementValue` can touch: the displayed value,
the raw value kept in `dataset.rawValue`, the freshness token and the
`updating` flag. -/
structure ElemState where
  displayed : String
  storedRaw : Option ℚ
  lastToken : ℕ
  updating : Bool

/-- The attributes in scope at write-back: `live-compute-auto` (`none` =
attribute absent) and `live-compute-skip` — the latter is carried to
record that `updateElementValue` never consults it. -/
structure ElemAttrs where
  autoAttr : Option String
  skipAttr : Option String

/-- Embedding of `updateElementValue(element, rawValue, displayValue,
sourceElement)`: return unchanged when the element is the propagation
source, when `live-compute-auto` is set to anything other than
absent/empty/`'true'`, when the element is `document.activeElement`, or
when the token is stale; otherwise write the display value (and, for
input-like elements, the raw value). -/
def updateElementValue (st : ElemState) (attrs : ElemAttrs) (isSource focused isInput : Bool)
    (now : ℕ) (rawValue : ℚ) (displayValue : String) : ElemState :=
  if isSource then st
  else if ¬(attrs.autoAttr = none ∨ attrs.autoAttr = some "" ∨ attrs.autoAttr = some "true")
  then st
  else if focused then st
  else if now ≤ st.lastToken then st
  else if isInput then
    { displayed := displayValue, storedRaw := some rawValue, lastToken := now, updating := true }
  else
    { displayed := displayValue, storedRaw := st.storedRaw, lastToken := now, updating := true }

/-- C10.  The write-back leaves both the displayed value and the stored
raw value unchanged whenever the node is the propagation source, or its
`live-compute-auto` attribute is set to any value other than
absent/empty/`'true'`, or the node is the focused element — whatever the
`live-compute-skip` attribute says. -/
theorem c10_writeback_protections (st : ElemState) (attrs : ElemAttrs)
    (isSource focused isInput : Bool) (now : ℕ) (rawValue : ℚ) (displayValue : String)
    (h : isSource = true ∨
      (∃ s, attrs.autoAttr = some s ∧ s ≠ "" ∧ s ≠ "true") ∨ focused = true) :
    (updateElementValue st attrs isSource focused isInput now rawValue displayValue).displayed =
      st.displayed ∧
    (updateElementValue st attrs isSource focused isInput now rawValue displayValue).storedRaw =
      st.storedRaw := by
  unfold updateElementValue
  by_cases hs : isSource = true
  · rw [if_pos hs]
    exact ⟨rfl, rfl⟩
  · rw [if_neg hs]
    rcases h with h | ⟨s, ha, h1, h2⟩ | h
    · exact absurd h hs
    · rw [if_pos (by rw [ha]; push_neg; refine ⟨by simp, by simpa using h1, by simpa using h2⟩)]
      exact ⟨rfl, rfl⟩
    · by_cases hauto :
        ¬(attrs.autoAttr = none ∨ attrs.autoAttr = some "" ∨ attrs.autoAttr = some "true")
      · rw [if_pos hauto]
        exact ⟨rfl, rfl⟩
      · rw [if_neg hauto, if_pos h]
        exact ⟨rfl, rfl⟩

/-- Witness for C10: a focused input element not marked skip-while-editing. -/
theorem c10_writeback_protections_witness :
    (updateElementValue ⟨"old", some 5, 0, false⟩ ⟨none, none⟩ false true true 10 7
      "7").displayed = (ElemState.mk "old" (some 5) 0 false).displayed ∧
    (updateElementValue ⟨"old", some 5, 0, false⟩ ⟨none, none⟩ false true true 10 7
      "7").storedRaw = (ElemState.mk "old" (some 5) 0 false).storedRaw :=
  c10_writeback_protections ⟨"old", some 5, 0, false⟩ ⟨none, none⟩ false true true 10 7 "7"
    (Or.inr (Or.inr rfl))

/-! ## Input bindings, `getValue`, `sumif` and criteria matching -/

/-- Decimal digits of a natural number, most significant first, with
structural fuel so that the kernel can evaluate it (`fuel ≥ n` always
suffices). -/
def natToDigitsAux : ℕ → ℕ → List Char
  | 0, n => [Nat.digitChar n]
  | fuel + 1, n =>
      if n < 10 then [Nat.digitChar n]
      else natToDigitsAux fuel (n / 10) ++ [Nat.digitChar (n % 10)]

/-- Decimal digits of a natural number, most significant first (the string
a row index becomes when substituted for `?`, and the integer part of the
number-to-string conversions). -/
def natToDigits (n : ℕ) : List Char := natToDigitsAux n n

/-- A DOM input field: its `name` attribute and current value. -/
structure InputField where
  name : String
  value : String

/-- `name.replace(/\]\[/g, '_')`. -/
def replaceBracketPairs : List Char → List Char
  | ']' :: '[' :: rest => '_' :: replaceBracketPairs rest
  | c :: rest => c :: replaceBracketPairs rest
  | [] => []

def isAlnumUnderscore (c : Char) : Bool := c.isAlpha || c.isDigit || c == '_'

/-- `sanitizeInputNameToJSVariable(name)`. -/
def sanitizeInputNameToJSVariable (name : String) : String :=
  String.mk (((replaceBracketPairs name.data).filter (fun c => !(c == '[' || c == ']'))).map
    (fun c => if isAlnumUnderscore c then c else '_'))

/-- `getGlobalInputs()`: the `inputs` object, keyed by sanitized names —
later fields overwrite earlier ones on the same key, so lookups take the
last binding. -/
def getGlobalInputs (dom : List InputField) : List (String × String) :=
  dom.map (fun f => (sanitizeInputNameToJSVariable f.name, String.mk (jsTrim f.value.data)))

/-- JS object lookup over the association list built by
`getGlobalInputs` (last write wins). -/
def getObj (inputs : List (String × String)) (k : String) : Option String :=
  (inputs.reverse.find? (fun p => p.1 == k)).map (·.2)

/-- `varName.match(/^rows_(\d+)_(.+)$/)`. -/
def rowsVarParse (v : List Char) : Option (List Char × List Char) :=
  if v.take 5 = ('r' :: 'o' :: 'w' :: 's' :: '_' :: []) then
    let rest := v.drop 5
    let d := rest.takeWhile Char.isDigit
    match rest.dropWhile Char.isDigit with
    | '_' :: f => if d ≠ [] ∧ f ≠ [] then some (d, f) else none
    | _ => none
  else none

/-- `getValue(varName, globalInputs)`: row-indexed names resolve against
the DOM field named `rows[i][field]` (first match, trimmed, `''` when
absent); other names resolve through the global inputs object (`|| ''`). -/
def getValue (varName : String) (dom : List InputField)
    (globalInputs : List (String × String)) : String :=
  match rowsVarParse varName.data with
  | some (d, f) =>
      let nm := String.mk (('r' :: 'o' :: 'w' :: 's' :: '[' :: []) ++ d ++
        (']' :: '[' :: []) ++ f ++ [']'])
      match dom.find? (fun fld => fld.name == nm) with
      | some fld => String.mk (jsTrim fld.value.data)
      | none => ""
  | none => (getObj globalInputs varName).getD ""

/-- Model of the JS builtin `Number()` on a string: whole-string numeric
conversion after trimming; empty/whitespace converts to `0`; `none` models
`NaN`.  (Hex and exponent forms are outside the inputs the engine
produces.)  The value is built with `mkRat` so concrete runs reduce in the
kernel. -/
def jsNumber (s : String) : Option ℚ :=
  let t := jsTrim s.data
  if t = [] then some 0
  else
    let neg := t.head? = some '-'
    let t1 := if t.head? = some '-' ∨ t.head? = some '+' then t.tail else t
    let i := t1.takeWhile Char.isDigit
    let sgn : ℤ := if neg then -1 else 1
    match t1.dropWhile Char.isDigit with
    | [] => if i = [] then none else some (mkRat (sgn * digitsVal i) 1)
    | '.' :: r2 =>
        let f := r2.takeWhile Char.isDigit
        if r2.dropWhile Char.isDigit = [] ∧ ¬(i = [] ∧ f = []) then
          some (mkRat (sgn * (digitsVal i * 10 ^ f.length + digitsVal f)) (10 ^ f.length))
        else none
    | _ => none

/-- `criteria.match(/^(>=|<=|==|!=|<>|>|<)\s*(.+)$/)`: the operator and
the rest (with `\s*` consuming as much whitespace as it can while leaving
`.+` at least one character). -/
def opSplit (c : List Char) : Option (String × List Char) :=
  let adj : List Char → Option (List Char) := fun r =>
    if r = [] then none
    else some (r.drop (min (r.takeWhile isWS).length (r.length - 1)))
  match c with
  | '>' :: '=' :: r => (adj r).map (fun x => (">=", x))
  | '<' :: '=' :: r => (adj r).map (fun x => ("<=", x))
  | '=' :: '=' :: r => (adj r).map (fun x => ("==", x))
  | '!' :: '=' :: r => (adj r).map (fun x => ("!=", x))
  | '<' :: '>' :: r => (adj r).map (fun x => ("<>", x))
  | '>' :: r => (adj r).map (fun x => (">", x))
  | '<' :: r => (adj r).map (fun x => ("<", x))
  | _ => none

/-- Embedding of `matchCriteria(value, criteria)`: numeric criteria compare
numerically (`NaN` never equal), operator criteria compare through the
JS comparison on `Number(...)` (`<>` is `!=`; `!=` is true when either
side is `NaN`), and everything else compares as strings. -/
def matchCriteria (value criteria : String) : Bool :=
  let c := String.mk (jsTrim criteria.data)
  if (jsNumber c).isSome then
    match jsNumber value, jsNumber c with
    | some a, some b => a == b
    | _, _ => false
  else
    match opSplit c.data with
    | some (op, restCs) =>
        let nc := jsNumber (String.mk restCs)
        let nv := jsNumber value
        if op = ">" then
          match nv, nc with | some a, some b => decide (a > b) | _, _ => false
        else if op = "<" then
          match nv, nc with | some a, some b => decide (a < b) | _, _ => false
        else if op = ">=" then
          match nv, nc with | some a, some b => decide (a ≥ b) | _, _ => false
        else if op = "<=" then
          match nv, nc with | some a, some b => decide (a ≤ b) | _, _ => false
        else if op = "==" then
          match nv, nc with | some a, some b => a == b | _, _ => false
        else
          match nv, nc with | some a, some b => !(a == b) | _, _ => true
    | none => value == c

/-- `range.replace(/\?/g, i)`. -/
def replaceQm (v : List Char) (i : ℕ) : List Char :=
  v.foldr (fun c acc => (if c = '?' then natToDigits i else [c]) ++ acc) []

/-- Embedding of `getSumIfValues(criteriaRange, criteria, sumRange,
globalInputs, indices)`. -/
def getSumIfValues (criteriaRange criteria sumRange : String) (dom : List InputField)
    (globalInputs : List (String × String)) (indices : List ℕ) : List ℚ :=
  if criteriaRange.data.contains '?' ∨ sumRange.data.contains '?' then
    indices.foldl (fun vals i =>
      let critVal := getValue (String.mk (replaceQm criteriaRange.data i)) dom globalInputs
      let sumVal := toNumberStr (getValue (String.mk (replaceQm sumRange.data i)) dom
        globalInputs)
      if matchCriteria critVal criteria then vals ++ [sumVal] else vals) []
  else
    let critVal := getValue criteriaRange dom globalInputs
    let sumVal := toNumberStr (getValue sumRange dom globalInputs)
    if matchCriteria critVal criteria then [sumVal] else []

/-- Embedding of `calculateAggregate(fn, vals)`.  (Its `isNaN` filter is
vacuous here: `toNumber` never produces `NaN`.) -/
def calculateAggregate (fn : String) (vals : List ℚ) : ℚ :=
  if fn = "sum" then vals.foldl (· + ·) 0
  else if fn = "avg" then
    if vals.length ≠ 0 then vals.foldl (· + ·) 0 / vals.length else 0
  else if fn = "min" then
    match vals with
    | [] => 0
    | v :: rest => rest.foldl min v
  else if fn = "max" then
    match vals with
    | [] => 0
    | v :: rest => rest.foldl max v
  else if fn = "count" then (vals.length : ℚ)
  else 0

/-- Split at the first occurrence of a character. -/
def splitFirst (c : Char) : List Char → Option (List Char × List Char)
  | [] => none
  | a :: r =>
      if a = c then some ([], r)
      else (splitFirst c r).map (fun p => (a :: p.1, p.2))

/-- The match of `/sumif\(([^,]+),\s*([^,]+),\s*([^)]+)\)/` against an
expression that is exactly one `sumif` call: the three capture groups. -/
def parseSumifCall (expr : String) : Option (String × String × String) :=
  if expr.data.take 6 = ('s' :: 'u' :: 'm' :: 'i' :: 'f' :: '(' :: []) then
    match splitFirst ',' (expr.data.drop 6) with
    | some (g1, r1) =>
        if g1 = [] then none
        else
          match splitFirst ',' (r1.dropWhile isWS) with
          | some (g2, r2) =>
              if g2 = [] then none
              else
                match splitFirst ')' (r2.dropWhile isWS) with
                | some (g3, _) =>
                    if g3 = [] then none
                    else some (String.mk g1, String.mk g2, String.mk g3)
                | none => none
          | none => none
    | none => none
  else none

/-- `evaluateExpression` on an expression that is exactly one `sumif`
call: `processAggregateFunctions` replaces the call by the numeral
`calculateAggregate('sum', …)`, the residual expression is that numeral,
and the sandboxed evaluation returns its value. -/
def evaluateSumif (expr : String) (dom : List InputField) (indices : List ℕ) : Option ℚ :=
  (parseSumifCall expr).map (fun g =>
    calculateAggregate "sum" (getSumIfValues g.1 g.2.1 g.2.2 dom (getGlobalInputs dom) indices))

/-- The bindings of the claim's scenario: two rows with a status and an
amount. -/
def c6Dom : List InputField :=
  [⟨"rows[0][status]", "paid"⟩, ⟨"rows[0][amount]", "100"⟩,
   ⟨"rows[1][status]", "due"⟩, ⟨"rows[1][amount]", "50"⟩]

/-- C6 counterexample: with the claim's bindings, the expression
`sumif(rows_?_status, "paid", rows_?_amount)` evaluates to `0`, not `100`:
`matchCriteria` never strips the quotes, so `'paid'` is compared with the
literal five-character string `"paid"` (quotes included) and no row
matches. -/
theorem c6_sumif_quoted_counterexample :
    evaluateSumif "sumif(rows_?_status, \"paid\", rows_?_amount)" c6Dom [0, 1] = some 0 ∧
    (0 : ℚ) ≠ 100 := by
  constructor
  · have hp : parseSumifCall "sumif(rows_?_status, \"paid\", rows_?_amount)" =
        some ("rows_?_status", "\"paid\"", "rows_?_amount") := by decide
    have h1 : evaluateSumif "sumif(rows_?_status, \"paid\", rows_?_amount)" c6Dom [0, 1] =
        some (calculateAggregate "sum" (getSumIfValues "rows_?_status" "\"paid\""
          "rows_?_amount" c6Dom (getGlobalInputs c6Dom) [0, 1])) := by
      unfold evaluateSumif
      rw [hp]
      rfl
    have hvals : getSumIfValues "rows_?_status" "\"paid\"" "rows_?_amount" c6Dom
        (getGlobalInputs c6Dom) [0, 1] = [] := rfl
    rw [h1, hvals]
    rfl
  · norm_num

/-- C6 (amended).  With the criteria written without quotes the scenario
yields the raw result `100`, and the criteria expression supports equality
and the numeric comparison operators `> < >= <= == !=` and `<>`, applied
per matched row. -/
theorem c6_sumif_amended :
    evaluateSumif "sumif(rows_?_status, paid, rows_?_amount)" c6Dom [0, 1] = some 100 ∧
    matchCriteria "100" ">50" = true ∧ matchCriteria "40" ">50" = false ∧
    matchCriteria "40" "<50" = true ∧
    matchCriteria "50" ">=50" = true ∧ matchCriteria "49" ">=50" = false ∧
    matchCriteria "50" "<=50" = true ∧
    matchCriteria "50" "==50" = true ∧ matchCriteria "49" "!=50" = true ∧
    matchCriteria "40" "<>50" = true ∧ matchCriteria "50" "<>50" = false ∧
    matchCriteria "paid" "paid" = true ∧ matchCriteria "due" "paid" = false := by
  refine ⟨?_, by decide, by decide, by decide, by decide, by decide, by decide, by decide,
    by decide, by decide, by decide, by decide, by decide⟩
  have hp : parseSumifCall "sumif(rows_?_status, paid, rows_?_amount)" =
      some ("rows_?_status", "paid", "rows_?_amount") := by decide
  have h1 : evaluateSumif "sumif(rows_?_status, paid, rows_?_amount)" c6Dom [0, 1] =
      some (calculateAggregate "sum" (getSumIfValues "rows_?_status" "paid" "rows_?_amount"
        c6Dom (getGlobalInputs c6Dom) [0, 1])) := by
    unfold evaluateSumif
    rw [hp]
    rfl
  have hvals : getSumIfValues "rows_?_status" "paid" "rows_?_amount" c6Dom
      (getGlobalInputs c6Dom) [0, 1] = [toNumberStr "100"] := rfl
  have h100 : toNumberStr "100" = 100 := by
    rw [toNumberStr_eval_concrete "100" ("100".data) false (by decide) (by decide) (by decide)
      (by decide)]
    rw [toNumberCore_eval_P3 _ (floatVal false ['1', '0', '0'] []) false false (by decide)
      (by decide) (by decide) (by decide) (by decide) (jsParseFloat_eq_some (by decide))]
    rw [floatVal_eval false _ _ 100 0 0 (by decide) (by decide) (by decide)]
    norm_num
  rw [h1, hvals]
  have hsum : calculateAggregate "sum" [toNumberStr "100"] = 0 + toNumberStr "100" := rfl
  rw [hsum, h100]
  norm_num

/-! ## Date-range functions (`dateUtils` and `handleDateFunction`) -/

/-- JS `ToIntegerOrInfinity` on a finite number: truncation toward zero. -/
def jsToInt (q : ℚ) : ℤ := q.num.tdiv q.den

/-- `String.prototype.split` with a one-character separator. -/
def splitOnChar (c : Char) : List Char → List (List Char)
  | [] => [[]]
  | a :: r =>
      let rest := splitOnChar c r
      if a = c then [] :: rest
      else
        match rest with
        | h :: t => (a :: h) :: t
        | [] => [[a]]

/-- Days in a civil month (`m` between 1 and 12). -/
def daysInMonth (y : ℤ) (m : ℕ) : ℕ :=
  if m = 2 then (if (y % 4 = 0 ∧ y % 100 ≠ 0) ∨ y % 400 = 0 then 29 else 28)
  else if m = 4 ∨ m = 6 ∨ m = 9 ∨ m = 11 then 30 else 31

/-- Days since the epoch of the civil date `(y, m, d)` with `m` between 1
and 12 and `d` entering linearly (the standard days-from-civil
computation); models the millisecond timestamp of `new Date` divided by
86400000. -/
def daysFromCivil (y : ℤ) (m : ℕ) (d : ℤ) : ℤ :=
  let y1 := if m ≤ 2 then y - 1 else y
  let era := Int.fdiv y1 400
  let yoe := y1 - era * 400
  let mp : ℕ := (m + 9) % 12
  let doy : ℤ := ((153 * mp + 2) / 5 : ℕ) + d - 1
  let doe := yoe * 365 + yoe / 4 - yoe / 100 + doy
  era * 146097 + doe - 719468

/-- `new Date(y, monthIndex, d)` normalization: month overflow rolls the
year, day overflow rolls linearly.  (The legacy two-digit-year quirk is
not modelled; the engine's inputs carry four-digit years.) -/
def jsDateDays (y mIndex d : ℤ) : ℤ :=
  let total := y * 12 + mIndex
  let yN := Int.fdiv total 12
  let mN := (Int.emod total 12).toNat + 1
  daysFromCivil yN mN d

/-- `start.split('-').map(Number)` destructured as `[sY, sM, sD]`:
`none` when any of the three components is `NaN` or missing. -/
def ymdNums (s : String) : Option (ℤ × ℤ × ℤ) :=
  let parts := (splitOnChar '-' s.data).map (fun l => jsNumber (String.mk l))
  match parts.getD 0 none, parts.getD 1 none, parts.getD 2 none with
  | some y, some m, some d => some (jsToInt y, jsToInt m, jsToInt d)
  | _, _, _ => none

/-- Embedding of this bundle's `dateUtils.rangeDate`: empty argument →
`0`; otherwise split on `-`, build two `Date`s and round the millisecond
difference to days.  A malformed component makes both `Date` and the
difference `NaN` (`none`): this variant has no `isNaN` guard. -/
def rangeDate (start finish : String) : Option ℚ :=
  if start = "" ∨ finish = "" then some 0
  else
    match ymdNums start, ymdNums finish with
    | some (sY, sM, sD), some (eY, eM, eD) =>
        some ((jsDateDays eY (eM - 1) eD - jsDateDays sY (sM - 1) sD : ℤ) : ℚ)
    | _, _ => none

/-- `new Date(string)` on the ISO `YYYY-MM-DD` form (the shape the
engine's date inputs produce); anything else is an invalid date. -/
def jsParseDateISO (s : String) : Option (ℤ × ℕ × ℕ) :=
  match s.data with
  | [y1, y2, y3, y4, '-', m1, m2, '-', d1, d2] =>
      if ([y1, y2, y3, y4, m1, m2, d1, d2].all Char.isDigit) then
        let y : ℤ := (digitsVal [y1, y2, y3, y4] : ℤ)
        let m := digitsVal [m1, m2]
        let d := digitsVal [d1, d2]
        if 1 ≤ m ∧ m ≤ 12 ∧ 1 ≤ d ∧ d ≤ daysInMonth y m then some (y, m, d) else none
      else none
  | _ => none

/-- `dateUtils.rangeMonth`: empty → `0`; invalid date (`isNaN` guard) →
`0`; else `(y2 - y1) * 12 + (m2 - m1)`. -/
def rangeMonth (start finish : String) : Option ℚ :=
  if start = "" ∨ finish = "" then some 0
  else
    match jsParseDateISO start, jsParseDateISO finish with
    | some (y1, m1, _), some (y2, m2, _) =>
        some (((y2 - y1) * 12 + ((m2 : ℤ) - (m1 : ℤ)) : ℤ) : ℚ)
    | _, _ => some 0

/-- `dateUtils.rangeYear`: empty → `0`; invalid → `0`; else `y2 - y1`. -/
def rangeYear (start finish : String) : Option ℚ :=
  if start = "" ∨ finish = "" then some 0
  else
    match jsParseDateISO start, jsParseDateISO finish with
    | some (y1, _, _), some (y2, _, _) => some ((y2 - y1 : ℤ) : ℚ)
    | _, _ => some 0

/-- `dateUtils.rangeWeek`: empty → `0`; invalid → `0`; else
`Math.ceil((d2 - d1) / weekMs)`. -/
def rangeWeek (start finish : String) : Option ℚ :=
  if start = "" ∨ finish = "" then some 0
  else
    match jsParseDateISO start, jsParseDateISO finish with
    | some (y1, m1, d1), some (y2, m2, d2) =>
        some ((⌈((daysFromCivil y2 m2 d2 - daysFromCivil y1 m1 d1 : ℤ) : ℚ) / 7⌉ : ℤ) : ℚ)
    | _, _ => some 0

/-- Embedding of `handleDateFunction(fnName, argsStr, globalInputs)`:
resolve both comma-separated arguments through `getValue`; fewer than two
or falsy (empty) arguments yield `0`; otherwise dispatch to `dateUtils`. -/
def handleDateFunction (fnName argsStr : String) (dom : List InputField) : Option ℚ :=
  let args := (splitOnChar ',' argsStr.data).map (fun a =>
    getValue (String.mk (jsTrim a)) dom (getGlobalInputs dom))
  if args.length ≠ 2 ∨ args.getD 0 "" = "" ∨ args.getD 1 "" = "" then some 0
  else
    let a := args.getD 0 ""
    let b := args.getD 1 ""
    if fnName = "rangeDate" then rangeDate a b
    else if fnName = "rangeMonth" then rangeMonth a b
    else if fnName = "rangeYear" then rangeYear a b
    else if fnName = "rangeWeek" then rangeWeek a b
    else some 0

/-- The bindings of the failing scenario: `a` holds a malformed date
string, `b` and `d` well-formed dates, and `c` does not exist. -/
def c8Dom : List InputField :=
  [⟨"a", "notadate"⟩, ⟨"b", "2024-01-05"⟩, ⟨"d", "2024-01-09"⟩]

/-- C8 (code bug).  With both arguments present but the first malformed,
`rangeDate` evaluates to `NaN` (`none`), not the `0` the specification
promises: this bundle's rewritten `rangeDate` dropped the
`isNaN(getTime())` guard that its three siblings (and the older copy of
`rangeDate` itself) still have, so the Invalid-Date arithmetic leaks out.
The siblings return `0` on the same input, a missing argument still yields
`0`, and well-formed dates compute the day delta. -/
theorem c8_rangeDate_nan_on_malformed :
    handleDateFunction "rangeDate" "a, b" c8Dom = none ∧
    handleDateFunction "rangeMonth" "a, b" c8Dom = some 0 ∧
    handleDateFunction "rangeYear" "a, b" c8Dom = some 0 ∧
    handleDateFunction "rangeWeek" "a, b" c8Dom = some 0 ∧
    handleDateFunction "rangeDate" "a, c" c8Dom = some 0 ∧
    handleDateFunction "rangeDate" "b, d" c8Dom = some 4 := by
  refine ⟨by decide, by decide, by decide, by decide, by decide, ?_⟩
  decide

/-! ## `formatResult` and the format/parse round trip -/

/-- `Math.round(x)`: round half toward positive infinity. -/
def jsRound (q : ℚ) : ℤ := ⌊q + 1 / 2⌋

/-- `Math.round(result * 100000) / 100000` — the five-decimal
normalization `formatResult` applies to every numeric result first. -/
def round5 (q : ℚ) : ℚ := (jsRound (q * 100000) : ℚ) / 100000

/-- Digit grouping in threes from the right with a separator character
(the effect of `Intl.NumberFormat`'s `useGrouping` and of the
`replace(/\B(?=(\d{3})+(?!\d))/g, sep)` fallback), with structural fuel
(`fuel ≥ ds.length` always suffices). -/
def group3Aux (sep : Char) : ℕ → List Char → List Char
  | 0, ds => ds
  | fuel + 1, ds =>
      if ds.length ≤ 3 then ds
      else group3Aux sep fuel (ds.take (ds.length - 3)) ++ sep :: ds.drop (ds.length - 3)

/-- Grouping of a digit list in threes from the right. -/
def group3 (sep : Char) (ds : List Char) : List Char := group3Aux sep ds.length ds

/-- `Intl.NumberFormat(locale, {maximumFractionDigits: 0})` applied to an
integer: optional sign, then the decimal digits grouped in threes
(`en-US` groups with `,`, `id-ID` with `.`). -/
def formatGroupedInt (sep : Char) (n : ℤ) : String :=
  if n < 0 then "-" ++ String.mk (group3 sep (natToDigits n.natAbs))
  else String.mk (group3 sep (natToDigits n.natAbs))

/-- `Number.prototype.toFixed(2)` on an exact rational: round the scaled
value half toward the larger candidate, then print sign, integer digits,
a dot and exactly two fraction digits. -/
def toFixed2 (q : ℚ) : String :=
  let n : ℤ := ⌊q * 100 + 1 / 2⌋
  let m := n.natAbs
  let core := String.mk
    (natToDigits (m / 100) ++ '.' :: [Nat.digitChar (m / 10 % 10), Nat.digitChar (m % 10)])
  if n < 0 then "-" ++ core else core

/-- `Number.prototype.toString()` restricted to the values the default
branch of `formatResult` can receive (multiples of `1e-5`, produced by the
initial rounding): sign, integer digits, then up to five fraction digits
with trailing zeros removed. -/
def jsNumToStr (q : ℚ) : String :=
  let n : ℤ := ⌊q * 100000⌋
  let a := n.natAbs
  let ip := natToDigits (a / 100000)
  let fr := [Nat.digitChar (a / 10000 % 10), Nat.digitChar (a / 1000 % 10),
    Nat.digitChar (a / 100 % 10), Nat.digitChar (a / 10 % 10), Nat.digitChar (a % 10)]
  let fr2 := (fr.reverse.dropWhile (· == '0')).reverse
  let core := String.mk (ip ++ (if fr2.isEmpty then [] else '.' :: fr2))
  if n < 0 then "-" ++ core else core

/-- `Intl.NumberFormat('id-ID')` with its defaults: group with `.`, comma
as the decimal mark, at most three fraction digits, half away from zero. -/
def formatNumberId (q : ℚ) : String :=
  let n : ℕ := (⌊|q| * 1000 + 1 / 2⌋).toNat
  let ip := group3 '.' (natToDigits (n / 1000))
  let fr := [Nat.digitChar (n / 100 % 10), Nat.digitChar (n / 10 % 10), Nat.digitChar (n % 10)]
  let fr2 := (fr.reverse.dropWhile (· == '0')).reverse
  let core := String.mk (ip ++ (if fr2.isEmpty then [] else ',' :: fr2))
  if q < 0 then "-" ++ core else core

/-- Decimal string of an integer (`Math.floor(result).toString()` and the
`… + ' days'` template pieces). -/
def intToStr (n : ℤ) : String :=
  if n < 0 then "-" ++ String.mk (natToDigits n.natAbs) else String.mk (natToDigits n.natAbs)

/-- `String.prototype.toLowerCase` (ASCII suffices for the format names). -/
def strLower (s : String) : String := String.mk (s.data.map Char.toLower)

/-- Embedding of `formatResult(result, format)` on numeric results.
`none` models `null`/`undefined`/`NaN` (the early `''` returns); the
callers only pass numbers, so the string re-coercion branch is vacuous
here.  The result is rounded to five decimals, then dispatched on the
lower-cased format name exactly as the `switch` does. -/
def formatResult (result : Option ℚ) (format : Option String) : String :=
  match result with
  | none => ""
  | some x =>
      let r := round5 x
      match format.map strLower with
      | some "idr" => formatGroupedInt '.' ⌊r⌋
      | some "currency" => formatGroupedInt ',' ⌊r⌋
      | some "dollar" => formatGroupedInt ',' ⌊r⌋
      | some "decimal" => toFixed2 r
      | some "percent" => toFixed2 (r * 100) ++ "%"
      | some "number" => formatNumberId r
      | some "days" => intToStr ⌊r⌋ ++ " days"
      | some "months" => intToStr ⌊r⌋ ++ " months"
      | some "years" => intToStr ⌊r⌋ ++ " years"
      | some "weeks" => intToStr ⌊r⌋ ++ " weeks"
      | _ => jsNumToStr r

/-! Digit characters and `digitsVal`. -/

theorem digitChar_isDigit {d : ℕ} (hd : d < 10) : (Nat.digitChar d).isDigit = true := by
  interval_cases d <;> decide

theorem digitChar_toNat {d : ℕ} (hd : d < 10) : (Nat.digitChar d).toNat - 48 = d := by
  interval_cases d <;> decide

theorem isDigit_facts {c : Char} (h : c.isDigit = true) :
    c ≠ '-' ∧ c ≠ '+' ∧ c ≠ ',' ∧ c ≠ '.' ∧ c ≠ '%' ∧ isWS c = false ∧ keepChar c = true := by
  refine ⟨?_, ?_, ?_, ?_, ?_, ?_, by simp [keepChar, h]⟩
  · rintro rfl; exact absurd h (by decide)
  · rintro rfl; exact absurd h (by decide)
  · rintro rfl; exact absurd h (by decide)
  · rintro rfl; exact absurd h (by decide)
  · rintro rfl; exact absurd h (by decide)
  · rw [Bool.eq_false_iff]
    intro hws
    simp only [isWS, decide_eq_true_eq] at hws
    rcases hws with hc | hc | hc | hc <;> (subst hc; exact absurd h (by decide))

theorem digitsVal_foldl (a : ℕ) (cs : List Char) :
    cs.foldl (fun a c => 10 * a + (c.toNat - 48)) a = a * 10 ^ cs.length + digitsVal cs := by
  induction cs generalizing a with
  | nil => simp [digitsVal]
  | cons c t ih =>
    rw [List.foldl_cons, ih, show digitsVal (c :: t) =
      List.foldl (fun a c => 10 * a + (c.toNat - 48)) (10 * 0 + (c.toNat - 48)) t from rfl,
      ih, List.length_cons]
    ring

theorem digitsVal_append (xs ys : List Char) :
    digitsVal (xs ++ ys) = digitsVal xs * 10 ^ ys.length + digitsVal ys := by
  unfold digitsVal
  rw [List.foldl_append, digitsVal_foldl]
  rfl

theorem natToDigitsAux_spec : ∀ fuel n, n ≤ fuel →
    (∀ c ∈ natToDigitsAux fuel n, c.isDigit = true) ∧
    natToDigitsAux fuel n ≠ [] ∧
    digitsVal (natToDigitsAux fuel n) = n := by
  intro fuel
  induction fuel with
  | zero =>
    intro n hn
    interval_cases n
    exact ⟨by decide, by decide, by decide⟩
  | succ fuel ih =>
    intro n hn
    by_cases h10 : n < 10
    · rw [natToDigitsAux, if_pos h10]
      refine ⟨?_, by simp, ?_⟩
      · intro c hc
        rw [List.mem_singleton] at hc
        subst hc
        exact digitChar_isDigit h10
      · show 10 * 0 + ((Nat.digitChar n).toNat - 48) = n
        have := digitChar_toNat h10
        omega
    · have hrec : n / 10 ≤ fuel := by
        have := Nat.div_lt_self (by omega : 0 < n) (by omega : 1 < 10)
        omega
      obtain ⟨iha, ihb, ihc⟩ := ih (n / 10) hrec
      rw [natToDigitsAux, if_neg h10]
      refine ⟨?_, by simp, ?_⟩
      · intro c hc
        rw [List.mem_append, List.mem_singleton] at hc
        rcases hc with hc | hc
        · exact iha c hc
        · subst hc
          exact digitChar_isDigit (Nat.mod_lt n (by omega))
      · rw [digitsVal_append, ihc]
        have h1 : digitsVal [Nat.digitChar (n % 10)] = n % 10 := by
          show 10 * 0 + ((Nat.digitChar (n % 10)).toNat - 48) = n % 10
          have := digitChar_toNat (Nat.mod_lt n (show 0 < 10 by omega) : n % 10 < 10)
          omega
        rw [h1, List.length_singleton]
        omega

theorem natToDigits_spec (n : ℕ) :
    (∀ c ∈ natToDigits n, c.isDigit = true) ∧
    natToDigits n ≠ [] ∧
    digitsVal (natToDigits n) = n :=
  natToDigitsAux_spec n n le_rfl

/-! Spans of an append, and `parseFloat` on symbolic digit strings. -/

theorem dropWhile_eq_self_of_all {p : Char → Bool} :
    ∀ l : List Char, (∀ c ∈ l, p c = false) → l.dropWhile p = l := by
  intro l h
  cases l with
  | nil => rfl
  | cons c t => exact List.dropWhile_cons_of_neg (by simp [h c (List.mem_cons_self c t)])

theorem jsTrim_eq_self {l : List Char} (h : ∀ c ∈ l, isWS c = false) : jsTrim l = l := by
  unfold jsTrim
  rw [dropWhile_eq_self_of_all l h,
    dropWhile_eq_self_of_all l.reverse (fun c hc => h c (List.mem_reverse.mp hc)),
    List.reverse_reverse]

theorem span_append {p : Char → Bool} :
    ∀ hd tl : List Char, (∀ c ∈ hd, p c = true) → (∀ c, tl.head? = some c → p c = false) →
      (hd ++ tl).takeWhile p = hd ∧ (hd ++ tl).dropWhile p = tl := by
  intro hd
  induction hd with
  | nil =>
    intro tl _ htl
    cases tl with
    | nil => exact ⟨rfl, rfl⟩
    | cons c t =>
      rw [List.nil_append]
      constructor
      · exact List.takeWhile_cons_of_neg (by simp [htl c rfl])
      · exact List.dropWhile_cons_of_neg (by simp [htl c rfl])
  | cons c t ih =>
    intro tl hhd htl
    have hc : p c = true := hhd c (List.mem_cons_self c t)
    obtain ⟨h1, h2⟩ := ih tl (fun x hx => hhd x (List.mem_cons_of_mem c hx)) htl
    rw [List.cons_append]
    constructor
    · rw [List.takeWhile_cons_of_pos hc, h1]
    · rw [List.dropWhile_cons_of_pos hc, h2]

theorem floatParts_digits {ds : List Char} (hne : ds ≠ [])
    (hd : ∀ c ∈ ds, c.isDigit = true) : floatParts ds = some (false, ds, []) := by
  obtain ⟨c, t, rfl⟩ := List.exists_cons_of_ne_nil hne
  obtain ⟨hm, hp, -, -, -, hw, -⟩ := isDigit_facts (hd c (List.mem_cons_self c t))
  unfold floatParts
  dsimp only
  rw [List.dropWhile_cons_of_neg (by simp [hw]), List.head?_cons]
  have hcond : ¬(some c = some '-' ∨ some c = some '+') := by
    rintro (h | h) <;> (injection h with h; first | exact hm h | exact hp h)
  rw [if_neg hcond,
    List.takeWhile_eq_self_iff.mpr (fun x hx => hd x hx),
    List.dropWhile_eq_nil_iff.mpr (fun x hx => hd x hx)]
  have hdot : ¬(([] : List Char).head? = some '.') := by simp
  rw [if_neg hdot, if_neg (fun h => List.noConfusion h.1),
    decide_eq_false (fun h => hm (Option.some.inj h))]

theorem jsParseFloat_digits {ds : List Char} (hne : ds ≠ [])
    (hd : ∀ c ∈ ds, c.isDigit = true) : jsParseFloat ds = some (digitsVal ds : ℚ) := by
  rw [jsParseFloat_eq_some (floatParts_digits hne hd),
    floatVal_eval false ds [] (digitsVal ds) 0 0 rfl rfl rfl]
  norm_num

theorem floatParts_dot {ds fs : List Char} (hne : ds ≠ [])
    (hd : ∀ c ∈ ds, c.isDigit = true) (hf : ∀ c ∈ fs, c.isDigit = true) :
    floatParts (ds ++ '.' :: fs) = some (false, ds, fs) := by
  obtain ⟨c, t, rfl⟩ := List.exists_cons_of_ne_nil hne
  obtain ⟨hm, hp, -, -, -, hw, -⟩ := isDigit_facts (hd c (List.mem_cons_self c t))
  unfold floatParts
  dsimp only
  rw [List.cons_append, List.dropWhile_cons_of_neg (by simp [hw]), List.head?_cons]
  have hcond : ¬(some c = some '-' ∨ some c = some '+') := by
    rintro (h | h) <;> (injection h with h; first | exact hm h | exact hp h)
  rw [if_neg hcond, ← List.cons_append]
  obtain ⟨h1, h2⟩ := span_append (c :: t) ('.' :: fs) hd
    (fun x hx => by injection hx with hx; subst hx; decide)
  rw [h1, h2, List.head?_cons, if_pos rfl, List.tail_cons,
    List.takeWhile_eq_self_iff.mpr (fun x hx => hf x hx),
    if_neg (fun h => List.noConfusion h.1),
    decide_eq_false (fun h => hm (Option.some.inj h))]

theorem jsParseFloat_dot {ds fs : List Char} (hne : ds ≠ [])
    (hd : ∀ c ∈ ds, c.isDigit = true) (hf : ∀ c ∈ fs, c.isDigit = true) :
    jsParseFloat (ds ++ '.' :: fs) =
      some ((digitsVal ds : ℚ) + (digitsVal fs : ℚ) / 10 ^ fs.length) := by
  rw [jsParseFloat_eq_some (floatParts_dot hne hd hf),
    floatVal_eval false ds fs (digitsVal ds) (digitsVal fs) fs.length rfl rfl rfl]
  simp

/-! Structure of a grouped digit string. -/

/-- The concatenation `,b₁,b₂,…` of comma-prefixed groups. -/
def blocksCat (bs : List (List Char)) : List Char :=
  bs.foldr (fun b acc => ',' :: b ++ acc) []

theorem blocksCat_append_singleton : ∀ (bs : List (List Char)) (b : List Char),
    blocksCat (bs ++ [b]) = blocksCat bs ++ ',' :: b := by
  intro bs b
  induction bs with
  | nil => simp [blocksCat]
  | cons x xs ih =>
    show ',' :: x ++ blocksCat (xs ++ [b]) = (',' :: x ++ blocksCat xs) ++ ',' :: b
    rw [ih, List.append_assoc]

theorem mem_blocksCat {c : Char} : ∀ bs : List (List Char),
    c ∈ blocksCat bs → c = ',' ∨ ∃ b ∈ bs, c ∈ b := by
  intro bs
  induction bs with
  | nil => intro h; exact absurd h (List.not_mem_nil c)
  | cons x xs ih =>
    intro h
    rcases List.mem_cons.mp h with h | h
    · exact Or.inl h
    · rcases List.mem_append.mp h with h | h
      · exact Or.inr ⟨x, List.mem_cons_self x xs, h⟩
      · rcases ih h with h | ⟨b, hb, hc⟩
        · exact Or.inl h
        · exact Or.inr ⟨b, List.mem_cons_of_mem x hb, hc⟩

theorem blocksCat_commaGroups : ∀ bs : List (List Char), bs ≠ [] →
    (∀ b ∈ bs, b.length = 3 ∧ ∀ c ∈ b, c.isDigit = true) →
    commaGroups (blocksCat bs) = true := by
  intro bs
  induction bs with
  | nil => intro h; exact absurd rfl h
  | cons x xs ih =>
    intro _ hbs
    obtain ⟨hlen, hdig⟩ := hbs x (List.mem_cons_self x xs)
    obtain ⟨d1, d2, d3, rfl⟩ := List.length_eq_three.mp hlen
    show commaGroups (',' :: d1 :: d2 :: d3 :: blocksCat xs) = true
    rw [commaGroups]
    have h1 := hdig d1 (by simp)
    have h2 := hdig d2 (by simp)
    have h3 := hdig d3 (by simp)
    rw [h1, h2, h3]
    rcases eq_or_ne xs [] with hxs | hxs
    · subst hxs
      simp [blocksCat]
    · rw [ih hxs (fun b hb => hbs b (List.mem_cons_of_mem _ hb))]
      simp

theorem blocksCat_filter (bs : List (List Char))
    (hbs : ∀ b ∈ bs, ∀ c ∈ b, c.isDigit = true) :
    (blocksCat bs).filter (· != ',') = bs.flatten := by
  induction bs with
  | nil => rfl
  | cons x xs ih =>
    show ((',' :: x) ++ blocksCat xs).filter (· != ',') = x ++ xs.flatten
    rw [List.filter_append,
      show List.filter (fun c => c != ',') (',' :: x) = List.filter (fun c => c != ',') x from
        List.filter_cons_of_neg (by decide),
      List.filter_eq_self.mpr (fun c hc => by
        simp only [bne_iff_ne, ne_eq]
        exact (isDigit_facts (hbs x (List.mem_cons_self x xs) c hc)).2.2.1),
      ih (fun b hb => hbs b (List.mem_cons_of_mem x hb))]

theorem mem_group3Aux {sep c : Char} : ∀ fuel ds, c ∈ group3Aux sep fuel ds → c ∈ ds ∨ c = sep := by
  intro fuel
  induction fuel with
  | zero => intro ds h; exact Or.inl h
  | succ fuel ih =>
    intro ds h
    rw [group3Aux] at h
    split at h
    · exact Or.inl h
    · rcases List.mem_append.mp h with h | h
      · rcases ih _ h with h | h
        · exact Or.inl (List.take_subset _ ds h)
        · exact Or.inr h
      · rcases List.mem_cons.mp h with h | h
        · exact Or.inr h
        · exact Or.inl (List.drop_subset _ ds h)

theorem group3Aux_comma_spec : ∀ fuel (ds : List Char), ds.length ≤ fuel → ds ≠ [] →
    (∀ c ∈ ds, c.isDigit = true) →
    ∃ hd bs, group3Aux ',' fuel ds = hd ++ blocksCat bs ∧
      ds = hd ++ bs.flatten ∧ hd ≠ [] ∧ hd.length ≤ 3 ∧
      (∀ c ∈ hd, c.isDigit = true) ∧
      (∀ b ∈ bs, b.length = 3 ∧ ∀ c ∈ b, c.isDigit = true) := by
  intro fuel
  induction fuel with
  | zero =>
    intro ds hlen hne _
    rw [List.length_eq_zero.mp (Nat.le_zero.mp hlen)] at hne
    exact absurd rfl hne
  | succ fuel ih =>
    intro ds hlen hne hdig
    by_cases h3 : ds.length ≤ 3
    · refine ⟨ds, [], ?_, by simp, hne, h3, hdig, by simp⟩
      rw [group3Aux, if_pos h3]
      simp [blocksCat]
    · have htake : (ds.take (ds.length - 3)).length ≤ fuel := by
        rw [List.length_take]
        omega
      have htne : ds.take (ds.length - 3) ≠ [] := by
        intro h
        have := congrArg List.length h
        rw [List.length_take] at this
        simp at this
        omega
      obtain ⟨hd, bs, hg, hds, hhne, hh3, hhdig, hbs⟩ :=
        ih (ds.take (ds.length - 3)) htake htne
          (fun c hc => hdig c (List.take_subset _ ds hc))
      refine ⟨hd, bs ++ [ds.drop (ds.length - 3)], ?_, ?_, hhne, hh3, hhdig, ?_⟩
      · rw [group3Aux, if_neg h3, hg, blocksCat_append_singleton, List.append_assoc]
      · rw [List.flatten_append]
        simp only [List.flatten_cons, List.flatten_nil, List.append_nil]
        rw [← List.append_assoc, ← hds, List.take_append_drop]
      · intro b hb
        rcases List.mem_append.mp hb with hb | hb
        · exact hbs b hb
        · rw [List.mem_singleton] at hb
          subst hb
          constructor
          · rw [List.length_drop]
            omega
          · exact fun c hc => hdig c (List.drop_subset _ ds hc)

/-- Parsing a grouped natural number recovers it exactly:
`toNumber('1,234,567') = 1234567`. -/
theorem toNumberStr_grouped (m : ℕ) :
    toNumberStr (String.mk (group3 ',' (natToDigits m))) = m := by
  obtain ⟨hdig, hne, hval⟩ := natToDigits_spec m
  obtain ⟨hd, bs, hg, hsplit, hhne, hh3, hhdig, hbs⟩ :=
    group3Aux_comma_spec (natToDigits m).length (natToDigits m) le_rfl hne hdig
  have hg' : group3 ',' (natToDigits m) = hd ++ blocksCat bs := hg
  have halpha : ∀ c ∈ group3 ',' (natToDigits m), c.isDigit = true ∨ c = ',' := by
    intro c hc
    rcases mem_group3Aux _ _ hc with hc | hc
    · exact Or.inl (hdig c hc)
    · exact Or.inr hc
  have hWS : ∀ c ∈ group3 ',' (natToDigits m), isWS c = false := by
    intro c hc
    rcases halpha c hc with h | h
    · exact (isDigit_facts h).2.2.2.2.2.1
    · subst h; decide
  have hnoPct : ('%' : Char) ∉ group3 ',' (natToDigits m) := by
    intro h
    rcases halpha _ h with h | h
    · exact absurd h (by decide)
    · exact absurd h (by decide)
  have hnoMinus : ('-' : Char) ∉ group3 ',' (natToDigits m) := by
    intro h
    rcases halpha _ h with h | h
    · exact absurd h (by decide)
    · exact absurd h (by decide)
  have hkeep : ∀ c ∈ group3 ',' (natToDigits m), keepChar c = true := by
    intro c hc
    rcases halpha c hc with h | h
    · exact (isDigit_facts h).2.2.2.2.2.2
    · subst h; decide
  have hdata : (String.mk (group3 ',' (natToDigits m))).data = group3 ',' (natToDigits m) := rfl
  have hgne : group3 ',' (natToDigits m) ≠ [] := by
    rw [hg']
    intro h
    exact hhne (List.append_eq_nil.mp h).1
  have htrim : jsTrim (group3 ',' (natToDigits m)) = group3 ',' (natToDigits m) :=
    jsTrim_eq_self hWS
  have hfilPct : (group3 ',' (natToDigits m)).filter (· != '%') = group3 ',' (natToDigits m) := by
    rw [List.filter_eq_self]
    intro a ha
    simp only [bne_iff_ne, ne_eq]
    exact fun h => hnoPct (h ▸ ha)
  have hstep : toNumberStr (String.mk (group3 ',' (natToDigits m))) =
      toNumberCore (group3 ',' (natToDigits m)) false false := by
    apply toNumberStr_eval_concrete
    · rw [hdata, htrim]
      rintro (h | h)
      · exact hgne h
      · exact hnoMinus (h ▸ List.mem_singleton_self '-')
    · rw [hdata, htrim, hfilPct]
      intro h
      exact hnoMinus (mem_of_head?_eq h)
    · rw [hdata, htrim, hfilPct, List.filter_eq_self]
      exact fun a ha => hkeep a ha
    · rw [hdata, htrim, Bool.eq_false_iff, Ne, contains_iff_mem]
      exact hnoPct
  rw [hstep]
  cases hbse : bs with
  | nil =>
    subst hbse
    have hgds : group3 ',' (natToDigits m) = natToDigits m := by
      rw [hg', hsplit]
      rfl
    rw [hgds]
    have htw : (natToDigits m).takeWhile Char.isDigit = natToDigits m :=
      List.takeWhile_eq_self_iff.mpr hdig
    have hdw : (natToDigits m).dropWhile Char.isDigit = [] :=
      List.dropWhile_eq_nil_iff.mpr hdig
    have hp1 : isP1 (natToDigits m) = false := by
      unfold isP1
      rw [hdw, show dotGroups [] = false from rfl, Bool.and_false]
    have hp2 : isP2 (natToDigits m) = false := by
      unfold isP2
      rw [hdw, show commaGroups [] = false from rfl, Bool.and_false]
    have hp3 : isP3 (natToDigits m) = true := by
      unfold isP3
      rw [htw, hdw]
      dsimp only
      rw [decide_eq_true (show 1 ≤ (natToDigits m).length from List.length_pos.mpr hne)]
      rfl
    have hcon : (natToDigits m).contains ',' = false := by
      rw [Bool.eq_false_iff, Ne, contains_iff_mem]
      intro h
      exact absurd (hdig ',' h) (by decide)
    have hq : jsParseFloat (natToDigits m) = some (m : ℚ) := by
      rw [jsParseFloat_digits hne hdig, hval]
    rw [toNumberCore_eval_P3 _ (m : ℚ) false false hne hp1 hp2 hp3 hcon hq]
    simp
  | cons b bs' =>
    subst hbse
    have htl : blocksCat (b :: bs') = ',' :: (b ++ blocksCat bs') := rfl
    obtain ⟨htw, hdw⟩ := span_append hd (blocksCat (b :: bs')) hhdig
      (fun c hc => by rw [htl, List.head?_cons] at hc; injection hc with hc; subst hc; decide)
    rw [hg'] at hstep ⊢
    have hp1 : isP1 (hd ++ blocksCat (b :: bs')) = false := by
      unfold isP1
      rw [hdw, htl, show dotGroups (',' :: (b ++ blocksCat bs')) = false from rfl,
        Bool.and_false]
    have hp2 : isP2 (hd ++ blocksCat (b :: bs')) = true := by
      unfold isP2
      rw [htw, hdw]
      dsimp only
      rw [decide_eq_true (show 1 ≤ hd.length from List.length_pos.mpr hhne),
        decide_eq_true hh3, blocksCat_commaGroups (b :: bs') (by simp) hbs]
      rfl
    have hfil : (hd ++ blocksCat (b :: bs')).filter (· != ',') = natToDigits m := by
      rw [List.filter_append,
        List.filter_eq_self.mpr (fun c hc => by
          simp only [bne_iff_ne, ne_eq]
          exact (isDigit_facts (hhdig c hc)).2.2.1),
        blocksCat_filter (b :: bs') (fun x hx => (hbs x hx).2), hsplit]
    have hq : jsParseFloat ((hd ++ blocksCat (b :: bs')).filter (· != ',')) = some (m : ℚ) := by
      rw [hfil, jsParseFloat_digits hne hdig, hval]
    have hane : hd ++ blocksCat (b :: bs') ≠ [] := by
      intro h
      exact hhne (List.append_eq_nil.mp h).1
    rw [toNumberCore_eval_P2 _ (m : ℚ) false false hane hp1 hp2 hq]
    simp

/-- Parsing the grouped rendering of an integer recovers it exactly. -/
theorem toNumberStr_formatGroupedInt (k : ℤ) :
    toNumberStr (formatGroupedInt ',' k) = (k : ℚ) := by
  have hminus : ('-' : Char) ∉ (String.mk (group3 ',' (natToDigits k.natAbs))).data := by
    intro h
    rcases mem_group3Aux _ _ h with h | h
    · exact absurd ((natToDigits_spec k.natAbs).1 '-' h) (by decide)
    · exact absurd h (by decide)
  unfold formatGroupedInt
  by_cases hk : k < 0
  · rw [if_pos hk, toNumberStr_minus _ hminus, toNumberStr_grouped, Int.cast_natAbs,
      abs_of_neg hk, Int.cast_neg, neg_neg]
  · rw [if_neg hk, toNumberStr_grouped, Int.cast_natAbs,
      abs_of_nonneg (not_lt.mp hk)]

/-- Parsing an unsigned `toFixed(2)` rendering: the digit string
`⟨m/100⟩.⟨two digits of m mod 100⟩` parses back to `m / 100`. -/
theorem toFixed2_core (m : ℕ) :
    toNumberStr (String.mk (natToDigits (m / 100) ++ '.' ::
      [Nat.digitChar (m / 10 % 10), Nat.digitChar (m % 10)])) = (m : ℚ) / 100 := by
  obtain ⟨hdigi, hnei, hvali⟩ := natToDigits_spec (m / 100)
  have hc1 : (Nat.digitChar (m / 10 % 10)).isDigit = true :=
    digitChar_isDigit (Nat.mod_lt _ (by omega))
  have hc2 : (Nat.digitChar (m % 10)).isDigit = true :=
    digitChar_isDigit (Nat.mod_lt _ (by omega))
  have hfdig : ∀ c ∈ [Nat.digitChar (m / 10 % 10), Nat.digitChar (m % 10)], c.isDigit = true := by
    intro c hc
    rcases List.mem_cons.mp hc with hc | hc
    · subst hc; exact hc1
    · rw [List.mem_singleton] at hc; subst hc; exact hc2
  have halpha : ∀ c ∈ natToDigits (m / 100) ++ '.' ::
      [Nat.digitChar (m / 10 % 10), Nat.digitChar (m % 10)], c.isDigit = true ∨ c = '.' := by
    intro c hc
    rcases List.mem_append.mp hc with hc | hc
    · exact Or.inl (hdigi c hc)
    · rcases List.mem_cons.mp hc with hc | hc
      · exact Or.inr hc
      · exact Or.inl (hfdig c hc)
  have hWS : ∀ c ∈ natToDigits (m / 100) ++ '.' ::
      [Nat.digitChar (m / 10 % 10), Nat.digitChar (m % 10)], isWS c = false := by
    intro c hc
    rcases halpha c hc with h | h
    · exact (isDigit_facts h).2.2.2.2.2.1
    · subst h; decide
  have hnoPct : ('%' : Char) ∉ natToDigits (m / 100) ++ '.' ::
      [Nat.digitChar (m / 10 % 10), Nat.digitChar (m % 10)] := by
    intro h
    rcases halpha _ h with h | h
    · exact absurd h (by decide)
    · exact absurd h (by decide)
  have hnoMinus : ('-' : Char) ∉ natToDigits (m / 100) ++ '.' ::
      [Nat.digitChar (m / 10 % 10), Nat.digitChar (m % 10)] := by
    intro h
    rcases halpha _ h with h | h
    · exact absurd h (by decide)
    · exact absurd h (by decide)
  have hkeep : ∀ c ∈ natToDigits (m / 100) ++ '.' ::
      [Nat.digitChar (m / 10 % 10), Nat.digitChar (m % 10)], keepChar c = true := by
    intro c hc
    rcases halpha c hc with h | h
    · exact (isDigit_facts h).2.2.2.2.2.2
    · subst h; decide
  have hgne : natToDigits (m / 100) ++ '.' ::
      [Nat.digitChar (m / 10 % 10), Nat.digitChar (m % 10)] ≠ [] := by
    intro h
    exact hnei (List.append_eq_nil.mp h).1
  have htrim := jsTrim_eq_self hWS
  have hfilPct : (natToDigits (m / 100) ++ '.' ::
      [Nat.digitChar (m / 10 % 10), Nat.digitChar (m % 10)]).filter (· != '%') =
      natToDigits (m / 100) ++ '.' ::
      [Nat.digitChar (m / 10 % 10), Nat.digitChar (m % 10)] := by
    rw [List.filter_eq_self]
    intro a ha
    simp only [bne_iff_ne, ne_eq]
    exact fun h => hnoPct (h ▸ ha)
  have hstep : toNumberStr (String.mk (natToDigits (m / 100) ++ '.' ::
      [Nat.digitChar (m / 10 % 10), Nat.digitChar (m % 10)])) =
      toNumberCore (natToDigits (m / 100) ++ '.' ::
        [Nat.digitChar (m / 10 % 10), Nat.digitChar (m % 10)]) false false := by
    apply toNumberStr_eval_concrete
    · show ¬(jsTrim (natToDigits (m / 100) ++ _) = [] ∨ _)
      rw [htrim]
      rintro (h | h)
      · exact hgne h
      · exact hnoMinus (h ▸ List.mem_singleton_self '-')
    · show ¬((jsTrim (natToDigits (m / 100) ++ _)).filter _).head? = some '-'
      rw [htrim, hfilPct]
      intro h
      exact hnoMinus (mem_of_head?_eq h)
    · show ((jsTrim (natToDigits (m / 100) ++ _)).filter _).filter keepChar = _
      rw [htrim, hfilPct, List.filter_eq_self]
      exact fun a ha => hkeep a ha
    · show (jsTrim (natToDigits (m / 100) ++ _)).contains '%' = false
      rw [htrim, Bool.eq_false_iff, Ne, contains_iff_mem]
      exact hnoPct
  rw [hstep]
  obtain ⟨htw, hdw⟩ := span_append (natToDigits (m / 100))
    ('.' :: [Nat.digitChar (m / 10 % 10), Nat.digitChar (m % 10)]) hdigi
    (fun c hc => by rw [List.head?_cons] at hc; injection hc with hc; subst hc; decide)
  have hp1 : isP1 (natToDigits (m / 100) ++ '.' ::
      [Nat.digitChar (m / 10 % 10), Nat.digitChar (m % 10)]) = false := by
    unfold isP1
    rw [hdw, show dotGroups ('.' ::
      [Nat.digitChar (m / 10 % 10), Nat.digitChar (m % 10)]) = false from rfl, Bool.and_false]
  have hp2 : isP2 (natToDigits (m / 100) ++ '.' ::
      [Nat.digitChar (m / 10 % 10), Nat.digitChar (m % 10)]) = false := by
    unfold isP2
    rw [hdw, show commaGroups ('.' ::
      [Nat.digitChar (m / 10 % 10), Nat.digitChar (m % 10)]) = false from rfl, Bool.and_false]
  have hp3 : isP3 (natToDigits (m / 100) ++ '.' ::
      [Nat.digitChar (m / 10 % 10), Nat.digitChar (m % 10)]) = true := by
    unfold isP3
    rw [htw, hdw]
    dsimp only
    rw [decide_eq_true (show 1 ≤ (natToDigits (m / 100)).length from List.length_pos.mpr hnei),
      show dotTail ('.' :: [Nat.digitChar (m / 10 % 10), Nat.digitChar (m % 10)]) =
        (!([Nat.digitChar (m / 10 % 10), Nat.digitChar (m % 10)] : List Char).isEmpty &&
          ([Nat.digitChar (m / 10 % 10), Nat.digitChar (m % 10)] : List Char).all
            Char.isDigit) from rfl]
    simp [hc1, hc2]
  have hcon : (natToDigits (m / 100) ++ '.' ::
      [Nat.digitChar (m / 10 % 10), Nat.digitChar (m % 10)]).contains ',' = false := by
    rw [Bool.eq_false_iff, Ne, contains_iff_mem]
    intro h
    rcases halpha _ h with h | h
    · exact absurd h (by decide)
    · exact absurd h (by decide)
  have hfrac : digitsVal [Nat.digitChar (m / 10 % 10), Nat.digitChar (m % 10)] = m % 100 := by
    show 10 * (10 * 0 + ((Nat.digitChar (m / 10 % 10)).toNat - 48)) +
      ((Nat.digitChar (m % 10)).toNat - 48) = m % 100
    rw [digitChar_toNat (Nat.mod_lt _ (by omega)), digitChar_toNat (Nat.mod_lt _ (by omega))]
    omega
  have hq : jsParseFloat (natToDigits (m / 100) ++ '.' ::
      [Nat.digitChar (m / 10 % 10), Nat.digitChar (m % 10)]) =
      some (((m / 100 : ℕ) : ℚ) + ((m % 100 : ℕ) : ℚ) / 10 ^ 2) := by
    rw [jsParseFloat_dot hnei hdigi hfdig, hvali, hfrac]
    rfl
  rw [toNumberCore_eval_P3 _ _ false false hgne hp1 hp2 hp3 hcon hq]
  have h100 : (m : ℚ) = 100 * ((m / 100 : ℕ) : ℚ) + ((m % 100 : ℕ) : ℚ) := by
    exact_mod_cast (Nat.div_add_mod m 100).symm
  simp only [Bool.false_eq_true, if_false]
  rw [h100]
  ring

/-- Parsing a `toFixed(2)` rendering recovers the value exactly whenever it
is a multiple of `1/100`. -/
theorem toNumberStr_toFixed2 (y : ℚ) (hy : (100 * y).den = 1) :
    toNumberStr (toFixed2 y) = y := by
  have hky : ((100 * y).num : ℚ) = 100 * y := by
    have h := Rat.num_div_den (100 * y)
    rw [hy] at h
    simpa using h
  have hhalf : ⌊(1 / 2 : ℚ)⌋ = 0 := by
    rw [Int.floor_eq_iff]
    norm_num
  have hfloor : ⌊y * 100 + 1 / 2⌋ = (100 * y).num := by
    rw [mul_comm]
    nth_rewrite 1 [← hky]
    rw [add_comm, Int.floor_add_int, hhalf, zero_add]
  have hyv : y = (((100 * y).num : ℚ)) / 100 := by
    rw [hky]
    ring
  have hform : toFixed2 y = (if ⌊y * 100 + 1 / 2⌋ < 0 then
      "-" ++ String.mk (natToDigits ((⌊y * 100 + 1 / 2⌋).natAbs / 100) ++ '.' ::
        [Nat.digitChar ((⌊y * 100 + 1 / 2⌋).natAbs / 10 % 10),
         Nat.digitChar ((⌊y * 100 + 1 / 2⌋).natAbs % 10)])
    else String.mk (natToDigits ((⌊y * 100 + 1 / 2⌋).natAbs / 100) ++ '.' ::
        [Nat.digitChar ((⌊y * 100 + 1 / 2⌋).natAbs / 10 % 10),
         Nat.digitChar ((⌊y * 100 + 1 / 2⌋).natAbs % 10)])) := rfl
  have hm' : ('-' : Char) ∉ (String.mk (natToDigits (((100 * y).num).natAbs / 100) ++ '.' ::
      [Nat.digitChar (((100 * y).num).natAbs / 10 % 10),
       Nat.digitChar (((100 * y).num).natAbs % 10)])).data := by
    intro h
    rcases List.mem_append.mp h with h | h
    · exact absurd ((natToDigits_spec _).1 '-' h) (by decide)
    · rcases List.mem_cons.mp h with h | h
      · exact absurd h (by decide)
      · rcases List.mem_cons.mp h with h | h
        · exact absurd (congrArg Char.isDigit h)
            (by rw [digitChar_isDigit (Nat.mod_lt _ (by omega))]; decide)
        · rw [List.mem_singleton] at h
          exact absurd (congrArg Char.isDigit h)
            (by rw [digitChar_isDigit (Nat.mod_lt _ (by omega))]; decide)
  rw [hform, hfloor]
  by_cases hkneg : (100 * y).num < 0
  · rw [if_pos hkneg, toNumberStr_minus _ hm', toFixed2_core, Int.cast_natAbs,
      abs_of_neg hkneg, Int.cast_neg, hky]
    ring
  · rw [if_neg hkneg, toFixed2_core, Int.cast_natAbs,
      abs_of_nonneg (not_lt.mp hkneg), hky]
    ring

/-- No percent sign ever appears in a `toFixed(2)` rendering. -/
theorem toFixed2_no_pct (y : ℚ) : ('%' : Char) ∉ (toFixed2 y).data := by
  have hform : toFixed2 y = (if ⌊y * 100 + 1 / 2⌋ < 0 then
      "-" ++ String.mk (natToDigits ((⌊y * 100 + 1 / 2⌋).natAbs / 100) ++ '.' ::
        [Nat.digitChar ((⌊y * 100 + 1 / 2⌋).natAbs / 10 % 10),
         Nat.digitChar ((⌊y * 100 + 1 / 2⌋).natAbs % 10)])
    else String.mk (natToDigits ((⌊y * 100 + 1 / 2⌋).natAbs / 100) ++ '.' ::
        [Nat.digitChar ((⌊y * 100 + 1 / 2⌋).natAbs / 10 % 10),
         Nat.digitChar ((⌊y * 100 + 1 / 2⌋).natAbs % 10)])) := rfl
  have hcore : ('%' : Char) ∉ natToDigits ((⌊y * 100 + 1 / 2⌋).natAbs / 100) ++ '.' ::
      [Nat.digitChar ((⌊y * 100 + 1 / 2⌋).natAbs / 10 % 10),
       Nat.digitChar ((⌊y * 100 + 1 / 2⌋).natAbs % 10)] := by
    intro h
    rcases List.mem_append.mp h with h | h
    · exact absurd ((natToDigits_spec _).1 '%' h) (by decide)
    · rcases List.mem_cons.mp h with h | h
      · exact absurd h (by decide)
      · rcases List.mem_cons.mp h with h | h
        · exact absurd (congrArg Char.isDigit h)
            (by rw [digitChar_isDigit (Nat.mod_lt _ (by omega))]; decide)
        · rw [List.mem_singleton] at h
          exact absurd (congrArg Char.isDigit h)
            (by rw [digitChar_isDigit (Nat.mod_lt _ (by omega))]; decide)
  rw [hform]
  by_cases hneg : ⌊y * 100 + 1 / 2⌋ < 0
  · rw [if_pos hneg, String.data_append]
    intro h
    rcases List.mem_append.mp h with h | h
    · rcases List.mem_singleton.mp (h : _ ∈ ['-']) with h
      exact absurd h (by decide)
    · exact hcore h
  · rw [if_neg hneg]
    exact hcore

/-- The initial `Math.round(result * 100000) / 100000` is the identity on
every multiple of `1e-5`. -/
theorem round5_eq_self {x : ℚ} (h : (100000 * x).den = 1) : round5 x = x := by
  have hkx : ((100000 * x).num : ℚ) = 100000 * x := by
    have h2 := Rat.num_div_den (100000 * x)
    rw [h] at h2
    simpa using h2
  have hhalf : ⌊(1 / 2 : ℚ)⌋ = 0 := by
    rw [Int.floor_eq_iff]
    norm_num
  have hfloor : ⌊x * 100000 + 1 / 2⌋ = (100000 * x).num := by
    rw [mul_comm]
    nth_rewrite 1 [← hkx]
    rw [add_comm, Int.floor_add_int, hhalf, zero_add]
  unfold round5 jsRound
  rw [hfloor, hkx]
  ring

theorem formatResult_currency (x : ℚ) :
    formatResult (some x) (some "currency") = formatGroupedInt ',' ⌊round5 x⌋ := rfl

theorem formatResult_decimal (x : ℚ) :
    formatResult (some x) (some "decimal") = toFixed2 (round5 x) := rfl

theorem formatResult_percent (x : ℚ) :
    formatResult (some x) (some "percent") = toFixed2 (round5 x * 100) ++ "%" := rfl

/-- C9 (counterexample).  The claimed round trip fails on `x = 1234.5`
with the `currency` format: `formatResult` floors the rounded value before
grouping, so the formatted string parses back to `1234`, an error of
`0.5`, far outside the `1e-4` tolerance. -/
theorem c9_roundtrip_counterexample :
    toNumberStr (formatResult (some (2469 / 2)) (some "currency")) = 1234 ∧
    ¬|toNumberStr (formatResult (some (2469 / 2)) (some "currency")) - 2469 / 2| <
      PRECISION_TOLERANCE := by
  have h1 : formatResult (some (2469 / 2 : ℚ)) (some "currency") = "1,234" := by
    rw [formatResult_currency, round5_eq_self (show ((100000 : ℚ) * (2469 / 2)).den = 1 from by
      rw [show (100000 : ℚ) * (2469 / 2) = ((123450000 : ℤ) : ℚ) from by norm_num,
        Rat.den_intCast]),
      show ⌊(2469 / 2 : ℚ)⌋ = (1234 : ℤ) from by rw [Int.floor_eq_iff]; norm_num]
    decide
  have hq : jsParseFloat (['1', ',', '2', '3', '4'].filter (· != ',')) = some (1234 : ℚ) := by
    rw [show List.filter (· != ',') ['1', ',', '2', '3', '4'] = ['1', '2', '3', '4'] from by
      decide,
      jsParseFloat_eq_some (show floatParts ['1', '2', '3', '4'] =
        some (false, ['1', '2', '3', '4'], []) from by decide),
      floatVal_eval false _ _ 1234 0 0 (by decide) (by decide) (by decide)]
    norm_num
  have hv : toNumberStr "1,234" = 1234 := by
    rw [toNumberStr_eval_concrete "1,234" ['1', ',', '2', '3', '4'] false (by decide) (by decide)
      (by decide) (by decide),
      toNumberCore_eval_P2 _ (1234 : ℚ) false false (by decide) (by decide) (by decide) hq]
    norm_num
  rw [h1, hv]
  refine ⟨rfl, ?_⟩
  rw [show (1234 : ℚ) - 2469 / 2 = -(1 / 2) from by norm_num, abs_neg,
    abs_of_pos (show (0 : ℚ) < 1 / 2 from by norm_num), PRECISION_TOLERANCE]
  norm_num

/-- C9 (amended).  For values exactly representable in the format's
printed precision — integers for `currency`, multiples of `1/100` for
`decimal`, multiples of `1/10000` for `percent` — the round trip
`toNumber(formatResult(x, kind))` recovers `x` exactly (hence within the
`1e-4` tolerance). -/
theorem c9_roundtrip_amended (x : ℚ) :
    (x.den = 1 → toNumberStr (formatResult (some x) (some "currency")) = x) ∧
    ((100 * x).den = 1 → toNumberStr (formatResult (some x) (some "decimal")) = x) ∧
    ((10000 * x).den = 1 → toNumberStr (formatResult (some x) (some "percent")) = x) := by
  refine ⟨?_, ?_, ?_⟩
  · intro h
    have hx : (x.num : ℚ) = x := by
      have h2 := Rat.num_div_den x
      rw [h] at h2
      simpa using h2
    have h5 : (100000 * x).den = 1 := by
      rw [show (100000 : ℚ) * x = ((100000 * x.num : ℤ) : ℚ) from by
        push_cast
        rw [hx]]
      exact Rat.den_intCast _
    have hfl : ⌊x⌋ = x.num := by
      nth_rewrite 1 [← hx]
      exact Int.floor_intCast x.num
    rw [formatResult_currency, round5_eq_self h5, toNumberStr_formatGroupedInt, hfl]
    exact hx
  · intro h
    have hk : (((100 * x).num : ℚ)) = 100 * x := by
      have h2 := Rat.num_div_den (100 * x)
      rw [h] at h2
      simpa using h2
    have h5 : (100000 * x).den = 1 := by
      rw [show (100000 : ℚ) * x = ((1000 * (100 * x).num : ℤ) : ℚ) from by
        push_cast
        rw [hk]
        ring]
      exact Rat.den_intCast _
    rw [formatResult_decimal, round5_eq_self h5, toNumberStr_toFixed2 x h]
  · intro h
    have hk : (((10000 * x).num : ℚ)) = 10000 * x := by
      have h2 := Rat.num_div_den (10000 * x)
      rw [h] at h2
      simpa using h2
    have h5 : (100000 * x).den = 1 := by
      rw [show (100000 : ℚ) * x = ((10 * (10000 * x).num : ℤ) : ℚ) from by
        push_cast
        rw [hk]
        ring]
      exact Rat.den_intCast _
    have hden : (100 * (x * 100)).den = 1 := by
      rw [show (100 : ℚ) * (x * 100) = 10000 * x from by ring]
      exact h
    rw [formatResult_percent, round5_eq_self h5, toNumberStr_percent _ (toFixed2_no_pct _),
      toNumberStr_toFixed2 (x * 100) hden]
    ring

/-- Witness for C9: concrete representable values for each of the three
formats round-trip exactly. -/
theorem c9_roundtrip_amended_witness :
    toNumberStr (formatResult (some (1234 : ℚ)) (some "currency")) = 1234 ∧
    toNumberStr (formatResult (some (247 / 100 : ℚ)) (some "decimal")) = 247 / 100 ∧
    toNumberStr (formatResult (some (3 / 100 : ℚ)) (some "percent")) = 3 / 100 :=
  ⟨(c9_roundtrip_amended 1234).1 (by
      rw [show (1234 : ℚ) = ((1234 : ℤ) : ℚ) from by norm_num]
      exact Rat.den_intCast 1234),
   (c9_roundtrip_amended (247 / 100)).2.1 (by
      rw [show (100 : ℚ) * (247 / 100) = ((247 : ℤ) : ℚ) from by norm_num]
      exact Rat.den_intCast 247),
   (c9_roundtrip_amended (3 / 100)).2.2 (by
      rw [show (10000 : ℚ) * (3 / 100) = ((300 : ℤ) : ℚ) from by norm_num]
      exact Rat.den_intCast 300)⟩

end LiveDom
